import Mathlib

/-!
Verification of the `kelliptic` Koblitz elliptic-curve library
(`src/kelliptic/kelliptic.go`) against its natural-language specification.

The Go code works on `math/big` arbitrary-precision integers.  Point
coordinates inside the Jacobian arithmetic engine are modelled as `ℤ`
(Go `big.Int` subtraction can go negative; `Int.emod`, Lean's `%` on `ℤ`,
is Euclidean just like Go's `big.Int.Mod`, producing results in `[0, m)`
for a positive modulus).  The square-root routine and the point codec
operate on reduced, non-negative values and are modelled on `ℕ`.
Go `for` loops without a structural decrease are modelled with an explicit
fuel parameter; the fuel chosen is always provably sufficient under the
preconditions of the theorems below.
-/

namespace Kelliptic

/-- Modular exponentiation, the model of Go `big.Int.Exp(a, n, p)` (an external
`math/big` primitive): computes `a ^ n % p` by binary exponentiation.  The
fuel argument only serves structural termination; `powMod_eq` below shows the
result is `a ^ n % p` whatever the (sufficient) fuel. -/
def powModAux : ℕ → ℕ → ℕ → ℕ → ℕ
  | 0, _, _, p => 1 % p
  | fuel + 1, a, n, p =>
    if n = 0 then 1 % p
    else
      let r := powModAux fuel (a * a % p) (n / 2) p
      if n % 2 = 1 then r * a % p else r

/-- `a ^ n % p`, executable by kernel reduction. -/
def powMod (a n p : ℕ) : ℕ := powModAux (n + 1) a n p

/-- Embedding of `legendre_symbol(a, p)` (kelliptic.go lines 491-512):
`0` if `a ≡ 0 (mod p)`, else `a^((p-1)/2) mod p` mapped to `-1` when it
equals `p - 1` and to `1` otherwise. -/
def legendre_symbol (a p : ℕ) : ℤ :=
  let ls := a % p
  if ls = 0 then 0
  else
    let ps := p - 1
    let l := powMod a (ps / 2) p
    if l = ps then -1 else 1

/-- Embedding of the partition loop in `Sqrt` (lines 407-418): divides out
factors of two, returning `(s, e)` with `s * 2^e` equal to the input (for
positive input and sufficient fuel, `s` odd). -/
def factorTwos : ℕ → ℕ → ℕ × ℕ
  | 0, s => (s, 0)
  | fuel + 1, s =>
    if s % 2 = 0 then
      let r := factorTwos fuel (s / 2)
      (r.1, r.2 + 1)
    else (s, 0)

/-- Embedding of the non-residue search in `Sqrt` (lines 420-427): starting
from `n`, increment until `legendre_symbol(n, p) = -1`. -/
def findNonResidue (p : ℕ) : ℕ → ℕ → ℕ
  | 0, n => n
  | fuel + 1, n => if legendre_symbol n p = -1 then n else findNonResidue p fuel (n + 1)

/-- Embedding of the inner loop of `Sqrt` (lines 462-471): starting from
`t = b` and counter `m`, squares `t` modulo `p` until it reaches `1` or the
step budget (`r - m` in the source) is exhausted; returns the final `m`. -/
def findMAux (p : ℕ) : ℕ → ℕ → ℕ → ℕ
  | 0, _, m => m
  | steps + 1, t, m => if t = 1 then m else findMAux p steps (t * t % p) (m + 1)

/-- Embedding of the outer `for {}` loop of `Sqrt` (lines 462-486).  Each
iteration strictly decreases `r`, so fuel `e + 1` (supplied by `Sqrt`) never
runs out on the paths the correctness theorem covers. -/
def sqrtLoop (p : ℕ) : ℕ → ℕ → ℕ → ℕ → ℕ → ℕ
  | 0, x, _, _, _ => x
  | fuel + 1, x, b, g, r =>
    let m := findMAux p r b 0
    if m = 0 then x
    else
      let gs := powMod g (2 ^ (r - m - 1)) p
      let g2 := gs * gs % p
      let x2 := x * gs % p
      let b2 := b * g2 % p
      sqrtLoop p fuel x2 b2 g2 m

/-- The curve parameter set (struct `Curve`, lines 26-32).  The Go fields are
`big.Int` pointers holding the non-negative constants below, so they are
modelled as `ℕ`. -/
structure Curve where
  P : ℕ
  N : ℕ
  B : ℕ
  Gx : ℕ
  Gy : ℕ
  BitSize : ℕ
  deriving DecidableEq

/-- Embedding of `Curve.IsOnCurve` (lines 46-58): `y² mod P == (x³ + B) mod P`. -/
def Curve.IsOnCurve (curve : Curve) (x y : ℤ) : Bool :=
  let y2 := y * y % (curve.P : ℤ)
  let x3 := (x * x * x + (curve.B : ℤ)) % (curve.P : ℤ)
  x3 == y2

/-- Embedding of `Curve.Sqrt` (lines 381-489), the Shanks-Tonelli modular
square root. -/
def Curve.Sqrt (curve : Curve) (a : ℕ) : ℕ :=
  let p := curve.P
  if legendre_symbol a p ≠ 1 then 0
  else if a = 0 then 0
  else if p = 2 then p
  else if p % 4 = 3 then powMod a ((p + 1) / 4) p
  else
    let se := factorTwos (p - 1) (p - 1)
    let s := se.1
    let e := se.2
    let n := findNonResidue p p 2
    let x := powMod a ((s + 1) / 2) p
    let b := powMod a s p
    let g := powMod n s p
    sqrtLoop p (e + 1) x b g e

/-- Embedding of `Curve.doubleJacobian` (lines 157-185), the dbl-2009-l
style Jacobian doubling. -/
def Curve.doubleJacobian (curve : Curve) (x y z : ℤ) : ℤ × ℤ × ℤ :=
  let a := x * x
  let b := y * y
  let c := b * b
  let d := 2 * ((x + b) * (x + b) - a - c)
  let e := 3 * a
  let f := e * e
  let x3 := (f - 2 * d) % (curve.P : ℤ)
  let y3 := (e * (d - x3) - 8 * c) % (curve.P : ℤ)
  let z3 := 2 * (y * z) % (curve.P : ℤ)
  (x3, y3, z3)

/-- Embedding of `Curve.addJacobian` (lines 84-145), the add-2007-bl style
Jacobian addition, including the two `Sign() == -1` normalizations. -/
def Curve.addJacobian (curve : Curve) (x1 y1 z1 x2 y2 z2 : ℤ) : ℤ × ℤ × ℤ :=
  let p := (curve.P : ℤ)
  let z1z1 := z1 * z1 % p
  let z2z2 := z2 * z2 % p
  let u1 := x1 * z2z2 % p
  let u2 := x2 * z1z1 % p
  let h0 := u2 - u1
  let h := if h0 < 0 then h0 + p else h0
  let i := 2 * h * (2 * h)
  let j := h * i
  let s1 := y1 * z2 * z2z2 % p
  let s2 := y2 * z1 * z1z1 % p
  let r0 := s2 - s1
  let r1 := if r0 < 0 then r0 + p else r0
  let r := 2 * r1
  let v := u1 * i
  let x3 := (r * r - j - v - v) % p
  let y3 := (r * (v - x3) - 2 * (s1 * j)) % p
  let z3a := (z1 + z2) * (z1 + z2) - z1z1
  let z3b := if z3a < 0 then z3a + p else z3a
  let z3c := z3b - z2z2
  let z3d := if z3c < 0 then z3c + p else z3c
  let z3 := z3d * h % p
  (x3, y3, z3)

/-- Fuelled extended Euclid on naturals: `egcd fuel a b = (g, s, t)` with
`s * a + t * b = g` and (for sufficient fuel) `g = gcd a b`.  This models the
external `math/big` `ModInverse` computation. -/
def egcd : ℕ → ℕ → ℕ → ℕ × ℤ × ℤ
  | 0, a, _ => (a, 1, 0)
  | fuel + 1, a, b =>
    if b = 0 then (a, 1, 0)
    else
      let q := a / b
      let r := egcd fuel b (a % b)
      (r.1, r.2.2, r.2.1 - (q : ℤ) * r.2.2)

/-- Model of Go `big.Int.ModInverse(g, n)` (an external `math/big` primitive):
the inverse of `g` modulo `n` in `[0, n)`, or `none` when `g` and `n` are not
coprime (Go sets the receiver to `nil` in that case, and the callers in this
package then dereference it — modelled as the `none` outcome). -/
def modInverse (g : ℤ) (n : ℕ) : Option ℤ :=
  let a := (g % (n : ℤ)).toNat
  let r := egcd n n a
  if r.1 = 1 then some (r.2.2 % (n : ℤ)) else none

/-- Embedding of `Curve.affineFromJacobian` (lines 64-74).  A `none` result
models the `nil` dereference that follows a failed `ModInverse` (`z` not
invertible modulo `P`). -/
def Curve.affineFromJacobian (curve : Curve) (x y z : ℤ) : Option (ℤ × ℤ) :=
  match modInverse z curve.P with
  | none => none
  | some zinv =>
    let zinvsq := zinv * zinv
    let xOut := x * zinvsq % (curve.P : ℤ)
    let yOut := y * (zinvsq * zinv) % (curve.P : ℤ)
    some (xOut, yOut)

/-- Embedding of `Curve.Add` (lines 77-80). -/
def Curve.Add (curve : Curve) (x1 y1 x2 y2 : ℤ) : Option (ℤ × ℤ) :=
  let s := curve.addJacobian x1 y1 1 x2 y2 1
  curve.affineFromJacobian s.1 s.2.1 s.2.2

/-- Embedding of `Curve.Double` (lines 148-151). -/
def Curve.Double (curve : Curve) (x1 y1 : ℤ) : Option (ℤ × ℤ) :=
  let s := curve.doubleJacobian x1 y1 1
  curve.affineFromJacobian s.1 s.2.1 s.2.2

/-- State of the `ScalarMult` scan: the Jacobian accumulator and the
`seenFirstTrue` flag (lines 199-204). -/
structure SMState where
  x : ℤ
  y : ℤ
  z : ℤ
  seen : Bool
  deriving DecidableEq

/-- One iteration of the inner bit loop of `ScalarMult` (lines 206-218),
for a single already-extracted bit. -/
def smStep (curve : Curve) (Bx By : ℤ) (st : SMState) (bit : Bool) : SMState :=
  let st1 :=
    if st.seen then
      let d := curve.doubleJacobian st.x st.y st.z
      { st with x := d.1, y := d.2.1, z := d.2.2 }
    else st
  if bit then
    if st1.seen then
      let s := curve.addJacobian Bx By 1 st1.x st1.y st1.z
      { st1 with x := s.1, y := s.2.1, z := s.2.2 }
    else { st1 with seen := true }
  else st1

/-- The 8-step bit loop over one byte of `k` (lines 205-219): the byte is
tested against `0x80` and shifted left (within 8 bits) each round. -/
def smByte (curve : Curve) (Bx By : ℤ) : ℕ → ℕ → SMState → SMState
  | 0, _, st => st
  | i + 1, b, st =>
    smByte curve Bx By i (b <<< 1 % 256) (smStep curve Bx By st (b &&& 0x80 == 0x80))

/-- Embedding of `Curve.ScalarMult` (lines 190-226).  The outer `none`
models the `return nil, nil` taken when no set bit was seen; otherwise the
affine conversion result (itself an `Option`, see
`Curve.affineFromJacobian`) is returned. -/
def Curve.ScalarMult (curve : Curve) (Bx By : ℤ) (k : List ℕ) : Option (Option (ℤ × ℤ)) :=
  let st := k.foldl (fun st b => smByte curve Bx By 8 b st) ⟨Bx, By, 1, false⟩
  if st.seen then some (curve.affineFromJacobian st.x st.y st.z) else none

/-- Embedding of `Curve.ScalarBaseMult` (lines 230-232). -/
def Curve.ScalarBaseMult (curve : Curve) (k : List ℕ) : Option (Option (ℤ × ℤ)) :=
  curve.ScalarMult curve.Gx curve.Gy k

/-- Little-endian byte expansion (fuelled); building block for `natBytes`. -/
def natBytesLE : ℕ → ℕ → List ℕ
  | 0, _ => []
  | fuel + 1, n => if n = 0 then [] else n % 256 :: natBytesLE fuel (n / 256)

/-- Model of Go `big.Int.Bytes()` (an external `math/big` primitive): the
minimal big-endian byte representation of a non-negative integer, empty
for `0` — in particular there is no left-padding to any fixed width. -/
def natBytes (n : ℕ) : List ℕ := (natBytesLE n n).reverse

/-- Model of Go `big.Int.SetBytes` (an external `math/big` primitive):
interpret a big-endian byte sequence. -/
def fromBytes (l : List ℕ) : ℕ := l.foldl (fun a b => 256 * a + b) 0

/-- Embedding of `Curve.CompressPoint` (lines 319-331): a parity tag byte
(`3` if `Y` is odd, `2` if even) followed by the bytes of `X`. -/
def Curve.CompressPoint (_curve : Curve) (X Y : ℕ) : List ℕ :=
  (if Y % 2 = 1 then 3 else 2) :: natBytes X

/-- Result of `DecompressPoint`.  `indexOutOfRange` models the unguarded
`cp[0]` access panicking on an empty slice; `uncompressed` marks the tag-4
branch, which delegates to the external `crypto/elliptic.Unmarshal` and is
not modelled further (no claim depends on its value). -/
inductive DecompressResult where
  | ok (X Y : ℕ)
  | uncompressed
  | invalidHeader
  | invalidLength
  | notOnCurve
  | indexOutOfRange
  deriving DecidableEq

/-- Embedding of `Curve.DecompressPoint` (lines 333-373).  Note the tag byte
is examined before any length validation, exactly as in the source. -/
def Curve.DecompressPoint (curve : Curve) (cp : List ℕ) : DecompressResult :=
  match cp with
  | [] => .indexOutOfRange
  | t :: rest =>
    if t = 0x03 ∨ t = 0x02 then
      let c : ℕ := if t = 0x03 then 1 else 0
      let byteLen := (curve.BitSize + 7) >>> 3
      if cp.length ≠ 1 + byteLen then .invalidLength
      else
        let X := fromBytes rest
        let Y0 := X * X % curve.P
        let Y1 := Y0 * X % curve.P
        let Y2 := (Y1 + curve.B) % curve.P
        let Y := curve.Sqrt Y2
        if Y = 0 then .notOnCurve
        else if c ≠ Y % 2 then .ok X (curve.P - Y)
        else .ok X Y
    else if t = 0x04 then .uncompressed
    else .invalidHeader

/-- `initS160` (lines 250-259), SEC 2 section 2.4.1 constants. -/
def secp160k1 : Curve where
  P := 0xFFFFFFFFFFFFFFFFFFFFFFFFFFFFFFFEFFFFAC73
  N := 0x0100000000000000000001B8FA16DFAB9ACA16B6B3
  B := 0x0000000000000000000000000000000000000007
  Gx := 0x3B4C382CE37AA192A4019E763036F4F5DD4D7EBB
  Gy := 0x938CF935318FDCED6BC28286531733C3F03C4FEE
  BitSize := 160

/-- `initS192` (lines 261-270), SEC 2 section 2.5.1 constants. -/
def secp192k1 : Curve where
  P := 0xFFFFFFFFFFFFFFFFFFFFFFFFFFFFFFFFFFFFFFFEFFFFEE37
  N := 0xFFFFFFFFFFFFFFFFFFFFFFFE26F2FC170F69466A74DEFD8D
  B := 0x000000000000000000000000000000000000000000000003
  Gx := 0xDB4FF10EC057E9AE26B07D0280B7F4341DA5D1B1EAE06C7D
  Gy := 0x9B2F2F6D9C5628A7844163D015BE86344082AA88D95E2F9D
  BitSize := 192

/-- `initS224` (lines 272-281), SEC 2 section 2.6.1 constants. -/
def secp224k1 : Curve where
  P := 0xFFFFFFFFFFFFFFFFFFFFFFFFFFFFFFFFFFFFFFFFFFFFFFFEFFFFE56D
  N := 0x010000000000000000000000000001DCE8D2EC6184CAF0A971769FB1F7
  B := 0x00000000000000000000000000000000000000000000000000000005
  Gx := 0xA1455B334DF099DF30FC28A169A467E9E47075A90F7E650EB6B7A45C
  Gy := 0x7E089FED7FBA344282CAFBD6F7E319F7C0B0BD59E2CA4BDB556D61A5
  BitSize := 224

/-- `initS256` (lines 283-292), SEC 2 section 2.7.1 constants. -/
def secp256k1 : Curve where
  P := 0xFFFFFFFFFFFFFFFFFFFFFFFFFFFFFFFFFFFFFFFFFFFFFFFFFFFFFFFEFFFFFC2F
  N := 0xFFFFFFFFFFFFFFFFFFFFFFFFFFFFFFFEBAAEDCE6AF48A03BBFD25E8CD0364141
  B := 0x0000000000000000000000000000000000000000000000000000000000000007
  Gx := 0x79BE667EF9DCBBAC55A06295CE870B07029BFCDB2DCE28D959F2815B16F81798
  Gy := 0x483ADA7726A3C4655DA4FBFC0E1108A8FD17B448A68554199C47D08FFB10D4B8
  BitSize := 256

/-- The four registered curves, as initialized by `initAll` (lines 243-248). -/
def registeredCurves : List Curve := [secp160k1, secp192k1, secp224k1, secp256k1]

/-- The doubling formula exactly as the specification states it (spec §4.2,
"dbl-2009-l family"): `a = x²`, `b = y²`, `c = b²`, `d = 2·((x+b)²−a−c)`,
`e = 3a`, `f = e²`, `x3 = f−2d`, `y3 = e·(d−x3)−8c`, `z3 = 2·y·z`, all
reduced mod `P`.  Stated from the spec's words, to be compared with the
source-derived `Curve.doubleJacobian`. -/
def specDouble2009l (P : ℕ) (x y z : ℤ) : ℤ × ℤ × ℤ :=
  let a := x * x
  let b := y * y
  let c := b * b
  let d := 2 * ((x + b) * (x + b) - a - c)
  let e := 3 * a
  let f := e * e
  let x3 := (f - 2 * d) % (P : ℤ)
  let y3 := (e * (d - x3) - 8 * c) % (P : ℤ)
  let z3 := (2 * y * z) % (P : ℤ)
  (x3, y3, z3)

/-- The bit sequence a single byte contributes to the `ScalarMult` scan,
most significant bit first, extracted exactly as lines 206-218 do
(test against `0x80`, then shift left within 8 bits). -/
def bitsOfByteAux : ℕ → ℕ → List Bool
  | 0, _ => []
  | i + 1, b => (b &&& 0x80 == 0x80) :: bitsOfByteAux i ((b <<< 1) % 256)

/-- All bits of the big-endian byte sequence `k`, most significant first. -/
def kBits (k : List ℕ) : List Bool := k.flatMap (bitsOfByteAux 8)

/-- The number whose big-endian bit expansion extends `v` by `bits`. -/
def bitsVal (bits : List Bool) (v : ℕ) : ℕ :=
  bits.foldl (fun a b => 2 * a + if b then 1 else 0) v

/-- The scalar-multiplication scan exactly as the specification describes it
(spec §4.3): the accumulator is seeded with the base point itself, the first
set bit is consumed as selecting the seed, and every bit after the first set
bit triggers a doubling plus, when set, an addition of the base point; no set
bit at all yields an absent result.  Stated from the spec's words, to be
compared with the source-derived `Curve.ScalarMult`. -/
def specSeedScan {α : Type} (dbl addBase : α → α) (seed : α) (bits : List Bool) : Option α :=
  match bits.dropWhile (fun b => !b) with
  | [] => none
  | _ :: rest => some (rest.foldl (fun acc bit => let acc2 := dbl acc; if bit then addBase acc2 else acc2) seed)

/-- The Weierstrass curve `y² = x³ + B` over `ZMod c.P` described by a
parameter set (spec §3: Koblitz curve with `a = 0`). -/
def curveW (c : Curve) : WeierstrassCurve.Affine (ZMod c.P) :=
  { a₁ := 0, a₂ := 0, a₃ := 0, a₄ := 0, a₆ := (c.B : ZMod c.P) }

/-- The Jacobian triple `(x, y, z)` represents the affine point `(X, Y)`
modulo `c.P`: `z` is a unit and `x = X·z²`, `y = Y·z³` (spec §3,
`JacobianPoint`). -/
def Represents (c : Curve) (x y z : ℤ) (X Y : ZMod c.P) : Prop :=
  (z : ZMod c.P) ≠ 0 ∧
    (x : ZMod c.P) = X * (z : ZMod c.P) ^ 2 ∧
    (y : ZMod c.P) = Y * (z : ZMod c.P) ^ 3

/-- A small Koblitz curve `y² = x³ + 3` over `F₇` with base point `(1, 2)`,
used as a concrete instance for the generic theorems.  (`N = 0` makes the
spec-side reduction modulo `N` trivial; the parameter is data only and is
never read by the arithmetic code.) -/
def curve7 : Curve where
  P := 7
  N := 0
  B := 3
  Gx := 1
  Gy := 2
  BitSize := 3

/-- A small Koblitz curve `y² = x³ + 1` over `F₁₁` with base point `(2, 3)`,
used as a concrete instance for the generic theorems. -/
def curve11 : Curve where
  P := 11
  N := 0
  B := 1
  Gx := 2
  Gy := 3
  BitSize := 4

/-! ### Byte-encoding lemmas -/

theorem foldl_bytes_acc (l : List ℕ) : ∀ a : ℕ,
    l.foldl (fun a b => 256 * a + b) a =
      a * 256 ^ l.length + l.foldl (fun a b => 256 * a + b) 0 := by
  induction l with
  | nil => intro a; simp
  | cons c l ih =>
    intro a
    show l.foldl _ (256 * a + c) = a * 256 ^ (c :: l).length + l.foldl _ (256 * 0 + c)
    rw [ih (256 * a + c), ih (256 * 0 + c), List.length_cons, pow_succ]
    ring

theorem fromBytes_cons (b : ℕ) (l : List ℕ) :
    fromBytes (b :: l) = b * 256 ^ l.length + fromBytes l := by
  unfold fromBytes
  show l.foldl _ (256 * 0 + b) = _
  rw [foldl_bytes_acc]
  norm_num

theorem fromBytes_append (l1 l2 : List ℕ) :
    fromBytes (l1 ++ l2) = fromBytes l1 * 256 ^ l2.length + fromBytes l2 := by
  unfold fromBytes
  rw [List.foldl_append, foldl_bytes_acc]

theorem natBytesLE_zero (fuel : ℕ) : natBytesLE fuel 0 = [] := by
  cases fuel <;> simp [natBytesLE]

theorem natBytesLE_lt (fuel : ℕ) : ∀ n, n ≤ fuel → n < 256 ^ (natBytesLE fuel n).length := by
  induction fuel with
  | zero => intro n hn; interval_cases n; simp [natBytesLE]
  | succ fuel ih =>
    intro n hn
    by_cases h0 : n = 0
    · subst h0; simp [natBytesLE_zero]
    · rw [natBytesLE, if_neg h0]
      have hdiv : n / 256 ≤ fuel := by
        have : n / 256 < n := Nat.div_lt_self (Nat.pos_of_ne_zero h0) (by norm_num)
        omega
      have := ih (n / 256) hdiv
      have hmod : n < 256 * (n / 256) + 256 := by
        have := @Nat.mod_lt n 256 (by norm_num)
        have := Nat.div_add_mod n 256
        omega
      calc n < 256 * (n / 256) + 256 := hmod
        _ = 256 * (n / 256 + 1) := by ring
        _ ≤ 256 * 256 ^ (natBytesLE fuel (n / 256)).length := by
            have : n / 256 + 1 ≤ 256 ^ (natBytesLE fuel (n / 256)).length := this
            exact Nat.mul_le_mul_left 256 this
        _ = 256 ^ (n % 256 :: natBytesLE fuel (n / 256)).length := by
            simp [List.length_cons, pow_succ]; ring

theorem natBytesLE_length_pos (fuel n : ℕ) (h0 : 0 < n) (hn : n ≤ fuel) :
    0 < (natBytesLE fuel n).length := by
  cases fuel with
  | zero => omega
  | succ fuel =>
    rw [natBytesLE, if_neg (by omega)]
    simp

theorem natBytesLE_le (fuel : ℕ) :
    ∀ n, n ≤ fuel → 0 < n → 256 ^ ((natBytesLE fuel n).length - 1) ≤ n := by
  induction fuel with
  | zero => intro n hn h0; omega
  | succ fuel ih =>
    intro n hn h0
    rw [natBytesLE, if_neg (by omega)]
    by_cases hq : n / 256 = 0
    · simp only [hq, natBytesLE_zero]
      simpa using h0
    · have hdiv : n / 256 ≤ fuel := by
        have : n / 256 < n := Nat.div_lt_self h0 (by norm_num)
        omega
      have hlen := natBytesLE_length_pos fuel (n / 256) (Nat.pos_of_ne_zero hq) hdiv
      have hle := ih (n / 256) hdiv (Nat.pos_of_ne_zero hq)
      have hkey : 256 ^ (natBytesLE fuel (n / 256)).length ≤ n := by
        calc 256 ^ (natBytesLE fuel (n / 256)).length
            = 256 ^ ((natBytesLE fuel (n / 256)).length - 1) * 256 := by
              rw [← pow_succ]; congr 1; omega
          _ ≤ n / 256 * 256 := Nat.mul_le_mul_right 256 hle
          _ ≤ n := by
              have := Nat.div_add_mod n 256
              omega
      simpa using hkey

theorem natBytesLE_fromBytes (fuel : ℕ) :
    ∀ n, n ≤ fuel → fromBytes (natBytesLE fuel n).reverse = n := by
  induction fuel with
  | zero => intro n hn; interval_cases n; simp [natBytesLE, fromBytes]
  | succ fuel ih =>
    intro n hn
    by_cases h0 : n = 0
    · subst h0; simp [natBytesLE_zero, fromBytes]
    · rw [natBytesLE, if_neg h0]
      have hdiv : n / 256 ≤ fuel := by
        have : n / 256 < n := Nat.div_lt_self (Nat.pos_of_ne_zero h0) (by norm_num)
        omega
      rw [List.reverse_cons, fromBytes_append, ih (n / 256) hdiv]
      show n / 256 * 256 ^ ([n % 256].length) + fromBytes [n % 256] = n
      have : fromBytes [n % 256] = n % 256 := by simp [fromBytes]
      rw [this]
      simp only [List.length_singleton, pow_one]
      have := Nat.div_add_mod n 256
      omega

theorem natBytes_zero : natBytes 0 = [] := by simp [natBytes, natBytesLE_zero]

theorem natBytes_fromBytes (n : ℕ) : fromBytes (natBytes n) = n :=
  natBytesLE_fromBytes n n le_rfl

theorem natBytes_lt (n : ℕ) : n < 256 ^ (natBytes n).length := by
  have := natBytesLE_lt n n le_rfl
  simpa [natBytes] using this

theorem natBytes_le (n : ℕ) (h0 : 0 < n) : 256 ^ ((natBytes n).length - 1) ≤ n := by
  have := natBytesLE_le n n le_rfl h0
  simpa [natBytes] using this

theorem natBytes_length_pos (n : ℕ) (h0 : 0 < n) : 0 < (natBytes n).length := by
  have := natBytesLE_length_pos n n h0 le_rfl
  simpa [natBytes] using this

theorem natBytes_length_eq (n L : ℕ) (hL : 1 ≤ L) (h1 : 256 ^ (L - 1) ≤ n)
    (h2 : n < 256 ^ L) : (natBytes n).length = L := by
  have h0 : 0 < n := lt_of_lt_of_le (Nat.pos_pow_of_pos _ (by norm_num)) h1
  have hlo := natBytes_le n h0
  have hhi := natBytes_lt n
  have hpos := natBytes_length_pos n h0
  set l := (natBytes n).length with hl
  by_contra hne
  rcases Nat.lt_or_ge l L with h | h
  · have : 256 ^ l ≤ 256 ^ (L - 1) := Nat.pow_le_pow_right (by norm_num) (by omega)
    omega
  · have hLl : L ≤ l - 1 := by omega
    have : 256 ^ L ≤ 256 ^ (l - 1) := Nat.pow_le_pow_right (by norm_num) hLl
    omega

/-! ### C9: the doubling formula -/

/-- C9: for every curve and every Jacobian input, `doubleJacobian` computes
exactly the dbl-2009-l formula stated in the spec — `a = x²`, `b = y²`,
`c = b²`, `d = 2·((x+b)²−a−c)`, `e = 3a`, `f = e²`, `x3 = f−2d`,
`y3 = e·(d−x3)−8c`, and in particular `z3 = 2·y·z` (not `3·y·z`), each
reduced mod `P`. -/
theorem C9_doubleJacobian_formula (c : Curve) (x y z : ℤ) :
    c.doubleJacobian x y z = specDouble2009l c.P x y z := by
  simp [Curve.doubleJacobian, specDouble2009l, mul_assoc]

/-! ### C10: the unguarded tag read in DecompressPoint -/

/-- C10: `DecompressPoint` examines the tag byte before any length check:
on the empty input the access is out of bounds (none of the three documented
typed errors results), and a one-byte input with an unknown tag already
yields the header error even though its length is wrong too. -/
theorem C10_decompress_tag_before_length (c : Curve) :
    c.DecompressPoint [] = .indexOutOfRange ∧
    c.DecompressPoint [0x05] = .invalidHeader ∧
    (DecompressResult.indexOutOfRange ≠ .invalidHeader ∧
     DecompressResult.indexOutOfRange ≠ .invalidLength ∧
     DecompressResult.indexOutOfRange ≠ .notOnCurve) := by
  refine ⟨rfl, ?_, by decide⟩
  simp [Curve.DecompressPoint]

/-! ### C7: the four generators lie on their curves -/

/-- C7: for each of the four registered curves, `IsOnCurve (Gx, Gy)` returns
`true`: the literal base-point constants satisfy `Gy² ≡ Gx³ + B (mod P)`. -/
theorem C7_generators_on_curve :
    ∀ c ∈ registeredCurves, c.IsOnCurve (c.Gx : ℤ) (c.Gy : ℤ) = true := by
  decide

/-! ### C3: Add at equal points versus Double -/

/-- At syntactically equal inputs the Jacobian addition collapses: `h = 0`
makes every product vanish and the result is the degenerate triple
`(0, 0, 0)` (spec §4.2's documented `h = 0` limitation). -/
theorem addJacobian_self (c : Curve) (x y z : ℤ) :
    c.addJacobian x y z x y z = (0, 0, 0) := by
  simp [Curve.addJacobian]

/-- `Add` on a degenerate triple fails: the modular inverse of `0` does not
exist for any modulus other than `1`. -/
theorem modInverse_zero (n : ℕ) (hn : n ≠ 1) : modInverse 0 n = none := by
  unfold modInverse egcd
  cases n with
  | zero => simp
  | succ m =>
    simp only [Int.zero_emod, Int.toNat_zero]
    cases m with
    | zero => omega
    | succ k => simp [egcd, hn]

/-- C3 (counterexample): on the registered curve secp160k1 and its on-curve
generator, `Add(G, G)` does not equal `Double(G)`: the addition hits the
degenerate equal-points case and produces no affine result at all, while
`Double` succeeds. -/
theorem C3_counterexample :
    secp160k1.IsOnCurve (secp160k1.Gx : ℤ) (secp160k1.Gy : ℤ) = true ∧
    secp160k1.Add secp160k1.Gx secp160k1.Gy secp160k1.Gx secp160k1.Gy ≠
      secp160k1.Double secp160k1.Gx secp160k1.Gy := by
  constructor
  · decide
  · decide

/-- C3 (amended): `Add(x, y, x, y)` never yields an affine result — the
equal-points input falls into the `h = 0` degenerate case of the addition
formula, which produces the Jacobian triple `(0, 0, 0)` whose `z = 0` is not
invertible — so equal-point addition cannot reproduce `Double` whenever
`Double` succeeds, and it must be routed through `Double` as the spec's
edge-case policy demands. -/
theorem C3_amended (c : Curve) (hP : c.P ≠ 1) (x y : ℤ) :
    c.Add x y x y = none ∧
    ∀ q, c.Double x y = some q → c.Add x y x y ≠ c.Double x y := by
  have hadd : c.Add x y x y = none := by
    unfold Curve.Add
    rw [addJacobian_self]
    show c.affineFromJacobian 0 0 0 = none
    unfold Curve.affineFromJacobian
    rw [modInverse_zero c.P hP]
  exact ⟨hadd, fun q hq => by rw [hadd, hq]; simp⟩

/-- Witness for `C3_amended` at the registered curve secp160k1 and its
generator. -/
theorem C3_amended_witness :
    secp160k1.Add secp160k1.Gx secp160k1.Gy secp160k1.Gx secp160k1.Gy = none :=
  (C3_amended secp160k1 (by decide) secp160k1.Gx secp160k1.Gy).1

/-! ### C5: compressed-encoding length -/

/-- C5 (counterexample): the on-curve secp256k1 point with `x = 1` compresses
to 2 bytes, not the claimed `1 + ceil(BitSize/8) = 33` bytes: `CompressPoint`
does not left-pad the `x` coordinate. -/
theorem C5_counterexample :
    secp256k1.IsOnCurve 1
      29896722852569046015560700294576055776214335159245303116488692907525646231534 = true ∧
    (secp256k1.CompressPoint 1
      29896722852569046015560700294576055776214335159245303116488692907525646231534).length ≠
      1 + (secp256k1.BitSize + 7) / 8 := by
  constructor
  · decide
  · decide

/-- C5 (amended): the compressed encoding of `(X, Y)` has length
`1 + (length of the minimal big-endian encoding of X)`; it equals `1 + L`
exactly when `X` occupies `L` bytes, i.e. when `256^(L-1) ≤ X < 256^L`
(or `X = 0` and `L = 0`).  The fixed width `L = ceil(BitSize/8)` is attained
only for `X ≥ 256^(ceil(BitSize/8) - 1)`. -/
theorem C5_amended (c : Curve) (X Y L : ℕ) (hXU : X < 256 ^ L) :
    (c.CompressPoint X Y).length = 1 + L ↔
      (X = 0 ∧ L = 0) ∨ (1 ≤ L ∧ 256 ^ (L - 1) ≤ X) := by
  have hlen : (c.CompressPoint X Y).length = 1 + (natBytes X).length := by
    simp [Curve.CompressPoint]
    omega
  rw [hlen]
  constructor
  · intro h
    have hNL : (natBytes X).length = L := by omega
    by_cases h0 : X = 0
    · subst h0
      left
      refine ⟨rfl, ?_⟩
      rw [← hNL, natBytes_zero]
      rfl
    · right
      have hpos := natBytes_length_pos X (Nat.pos_of_ne_zero h0)
      have hle := natBytes_le X (Nat.pos_of_ne_zero h0)
      rw [hNL] at hpos hle
      exact ⟨hpos, hle⟩
  · intro h
    rcases h with ⟨h0, hL⟩ | ⟨hL, hlo⟩
    · subst h0; subst hL; rw [natBytes_zero]; rfl
    · rw [natBytes_length_eq X L hL hlo hXU]

/-- Witness for `C5_amended`: a 33-byte `X` on secp256k1 compresses to
34 bytes. -/
theorem C5_amended_witness :
    (secp256k1.CompressPoint (256 ^ 32) 0).length = 1 + 33 :=
  (C5_amended secp256k1 (256 ^ 32) 0 33 (by norm_num)).mpr
    (Or.inr ⟨by norm_num, by norm_num⟩)

/-! ### C8: a scalar with no set bits -/

theorem fromBytes_zero_all_zero :
    ∀ k : List ℕ, fromBytes k = 0 → ∀ b ∈ k, b = 0 := by
  intro k
  induction k with
  | nil => intro _ b hb; cases hb
  | cons c l ih =>
    intro h b hb
    rw [fromBytes_cons] at h
    have h1 : c * 256 ^ l.length = 0 := Nat.eq_zero_of_add_eq_zero_right h
    have h2 : fromBytes l = 0 := Nat.eq_zero_of_add_eq_zero_left h
    have hc : c = 0 := by
      rcases Nat.mul_eq_zero.mp h1 with hc | hpow
      · exact hc
      · exact absurd hpow (Nat.pos_pow_of_pos _ (by norm_num)).ne'
    rcases List.mem_cons.mp hb with rfl | hb
    · exact hc
    · exact ih h2 b hb

theorem smByte_zero_byte (c : Curve) (Bx By : ℤ) :
    ∀ i (st : SMState), st.seen = false → smByte c Bx By i 0 st = st := by
  intro i
  induction i with
  | zero => intro st _; rfl
  | succ i ih =>
    intro st hseen
    show smByte c Bx By i ((0 <<< 1) % 256) (smStep c Bx By st ((0 &&& 0x80) == 0x80)) = st
    have hstep : smStep c Bx By st ((0 &&& 0x80) == 0x80) = st := by
      simp [smStep, hseen]
    rw [hstep]
    exact ih st hseen

theorem foldl_smByte_all_zero (c : Curve) (Bx By : ℤ) :
    ∀ (k : List ℕ) (st : SMState), st.seen = false → (∀ b ∈ k, b = 0) →
      k.foldl (fun st b => smByte c Bx By 8 b st) st = st := by
  intro k
  induction k with
  | nil => intro st _ _; rfl
  | cons b l ih =>
    intro st hseen hall
    have hb : b = 0 := hall b (by simp)
    subst hb
    show l.foldl _ (smByte c Bx By 8 0 st) = st
    rw [smByte_zero_byte c Bx By 8 st hseen]
    exact ih st hseen (fun b hb => hall b (by simp [hb]))

/-- C8: if the scalar byte sequence encodes zero (no set bits, including the
empty sequence), `ScalarMult` returns the absent outer result — the `nil, nil`
return — rather than coordinates or an error. -/
theorem C8_scalarMult_zero (c : Curve) (Bx By : ℤ) (k : List ℕ)
    (hk : fromBytes k = 0) : c.ScalarMult Bx By k = none := by
  have hall := fromBytes_zero_all_zero k hk
  unfold Curve.ScalarMult
  rw [foldl_smByte_all_zero c Bx By k ⟨Bx, By, 1, false⟩ rfl hall]
  rfl

/-- Witness for `C8_scalarMult_zero`: the two-byte zero scalar on secp256k1's
generator. -/
theorem C8_scalarMult_zero_witness :
    secp256k1.ScalarMult secp256k1.Gx secp256k1.Gy [0, 0] = none :=
  C8_scalarMult_zero secp256k1 secp256k1.Gx secp256k1.Gy [0, 0] (by decide)

/-! ### C1 (counterexample): the compression round-trip fails on short X -/

/-- C1 (counterexample): for the on-curve secp256k1 point with `x = 1`,
`DecompressPoint (CompressPoint x y)` does not return `(x, y)` — the
unpadded 2-byte encoding fails the strict `1 + ceil(BitSize/8)` length check
and decompression reports `invalidLength`. -/
theorem C1_counterexample :
    secp256k1.IsOnCurve 1
      29896722852569046015560700294576055776214335159245303116488692907525646231534 = true ∧
    29896722852569046015560700294576055776214335159245303116488692907525646231534 <
      secp256k1.P ∧
    secp256k1.DecompressPoint (secp256k1.CompressPoint 1
      29896722852569046015560700294576055776214335159245303116488692907525646231534) =
      .invalidLength ∧
    secp256k1.DecompressPoint (secp256k1.CompressPoint 1
      29896722852569046015560700294576055776214335159245303116488692907525646231534) ≠
      .ok 1 29896722852569046015560700294576055776214335159245303116488692907525646231534 := by
  refine ⟨by decide, by decide, by decide, by decide⟩

/-! ### Modular exponentiation -/

theorem powModAux_eq : ∀ (fuel a n p : ℕ), n < fuel → powModAux fuel a n p = a ^ n % p := by
  intro fuel
  induction fuel with
  | zero => intro a n p h; omega
  | succ fuel ih =>
    intro a n p h
    rw [powModAux]
    by_cases h0 : n = 0
    · simp [h0]
    · rw [if_neg h0]
      have hrec : powModAux fuel (a * a % p) (n / 2) p = (a * a) ^ (n / 2) % p := by
        rw [ih (a * a % p) (n / 2) p (by omega), Nat.pow_mod, Nat.mod_mod_of_dvd, ← Nat.pow_mod]
        exact dvd_rfl
      rw [hrec]
      by_cases hodd : n % 2 = 1
      · rw [if_pos hodd]
        have hn : (a * a) ^ (n / 2) * a = a ^ n := by
          conv_rhs => rw [show n = 2 * (n / 2) + 1 by omega]
          rw [pow_succ, pow_mul, sq]
        rw [Nat.mod_mul_mod, hn]
      · rw [if_neg hodd]
        have hn : (a * a) ^ (n / 2) = a ^ n := by
          conv_rhs => rw [show n = 2 * (n / 2) by omega]
          rw [pow_mul, sq]
        rw [hn]

theorem powMod_eq (a n p : ℕ) : powMod a n p = a ^ n % p :=
  powModAux_eq (n + 1) a n p (by omega)

theorem powMod_lt (a n p : ℕ) (hp : 0 < p) : powMod a n p < p := by
  rw [powMod_eq]; exact Nat.mod_lt _ hp

theorem natCast_powMod (a n p : ℕ) : ((powMod a n p : ℕ) : ZMod p) = (a : ZMod p) ^ n := by
  rw [powMod_eq, ZMod.natCast_mod, Nat.cast_pow]

theorem natCast_inj_of_lt {p a b : ℕ} (ha : a < p) (hb : b < p)
    (h : (a : ZMod p) = (b : ZMod p)) : a = b := by
  have := congrArg ZMod.val h
  rwa [ZMod.val_cast_of_lt ha, ZMod.val_cast_of_lt hb] at this

/-! ### The Legendre-symbol routine versus quadratic residuosity -/

theorem legendre_zero_iff (a p : ℕ) (hp : 0 < p) :
    (a : ZMod p) = 0 ↔ a % p = 0 := by
  rw [ZMod.natCast_zmod_eq_zero_iff_dvd, Nat.dvd_iff_mod_eq_zero]

theorem neg_one_cast_eq (p : ℕ) (hp : 1 ≤ p) : ((p - 1 : ℕ) : ZMod p) = -1 := by
  have : ((p - 1 : ℕ) : ZMod p) = (p : ZMod p) - 1 := by
    push_cast [Nat.cast_sub hp]
    ring
  rw [this, ZMod.natCast_self]
  ring

theorem legendre_symbol_of_mod_ne_zero (a p : ℕ) (h : ¬ a % p = 0) :
    legendre_symbol a p = if powMod a ((p - 1) / 2) p = p - 1 then -1 else 1 := by
  unfold legendre_symbol
  rw [if_neg h]

theorem legendre_eq_one (p : ℕ) [hp : Fact p.Prime] (hodd : p ≠ 2) (a : ℕ)
    (h0 : (a : ZMod p) ≠ 0) (hsq : IsSquare (a : ZMod p)) :
    legendre_symbol a p = 1 := by
  have hp1 : 1 < p := hp.out.one_lt
  have hls : ¬ a % p = 0 := by
    rw [← legendre_zero_iff a p (by omega)]; exact h0
  have heuler : (a : ZMod p) ^ (p / 2) = 1 := (ZMod.euler_criterion p h0).mp hsq
  have hhalf : (p - 1) / 2 = p / 2 := by
    have h2 := hp.out.two_le
    have hoddp : p % 2 = 1 := Nat.odd_iff.mp (hp.out.odd_of_ne_two hodd)
    omega
  have hl : powMod a ((p - 1) / 2) p = 1 := by
    apply natCast_inj_of_lt (powMod_lt a _ p (by omega)) hp1
    rw [natCast_powMod, hhalf, heuler, Nat.cast_one]
  rw [legendre_symbol_of_mod_ne_zero a p hls, hl, if_neg (by omega)]

theorem legendre_eq_neg_one (p : ℕ) [hp : Fact p.Prime] (hodd : p ≠ 2) (a : ℕ)
    (h0 : (a : ZMod p) ≠ 0) (hsq : ¬ IsSquare (a : ZMod p)) :
    legendre_symbol a p = -1 := by
  have hp1 : 1 < p := hp.out.one_lt
  have hls : ¬ a % p = 0 := by
    rw [← legendre_zero_iff a p (by omega)]; exact h0
  have heuler : (a : ZMod p) ^ (p / 2) = -1 := by
    rcases ZMod.pow_div_two_eq_neg_one_or_one p h0 with h | h
    · exact absurd ((ZMod.euler_criterion p h0).mpr h) hsq
    · exact h
  have hhalf : (p - 1) / 2 = p / 2 := by
    have h2 := hp.out.two_le
    have hoddp : p % 2 = 1 := Nat.odd_iff.mp (hp.out.odd_of_ne_two hodd)
    omega
  have hl : powMod a ((p - 1) / 2) p = p - 1 := by
    apply natCast_inj_of_lt (powMod_lt a _ p (by omega)) (by omega)
    rw [natCast_powMod, hhalf, heuler, neg_one_cast_eq p (by omega)]
  rw [legendre_symbol_of_mod_ne_zero a p hls, hl, if_pos rfl]

theorem nonsquare_of_legendre_neg_one (p : ℕ) [hp : Fact p.Prime] (hodd : p ≠ 2) (a : ℕ)
    (h : legendre_symbol a p = -1) : (a : ZMod p) ≠ 0 ∧ ¬ IsSquare (a : ZMod p) := by
  have hp1 : 1 < p := hp.out.one_lt
  constructor
  · intro h0
    rw [legendre_zero_iff a p (by omega)] at h0
    unfold legendre_symbol at h
    rw [if_pos h0] at h
    exact absurd h (by decide)
  · intro hsq
    by_cases h0 : (a : ZMod p) = 0
    · rw [legendre_zero_iff a p (by omega)] at h0
      unfold legendre_symbol at h
      rw [if_pos h0] at h
      exact absurd h (by decide)
    · rw [legendre_eq_one p hodd a h0 hsq] at h
      exact absurd h (by decide)

/-! ### The factor-two partition and the non-residue search -/

theorem factorTwos_spec : ∀ fuel s, 0 < s → s ≤ fuel →
    (factorTwos fuel s).1 % 2 = 1 ∧ (factorTwos fuel s).1 * 2 ^ (factorTwos fuel s).2 = s := by
  intro fuel
  induction fuel with
  | zero => intro s h0 h1; omega
  | succ fuel ih =>
    intro s h0 h1
    rw [factorTwos]
    by_cases he : s % 2 = 0
    · rw [if_pos he]
      have h2 : 2 ≤ s := by omega
      have hdiv : s / 2 ≤ fuel := by omega
      have hpos : 0 < s / 2 := by omega
      obtain ⟨ho, hv⟩ := ih (s / 2) hpos hdiv
      refine ⟨ho, ?_⟩
      simp only [pow_succ]
      calc (factorTwos fuel (s / 2)).1 * (2 ^ (factorTwos fuel (s / 2)).2 * 2)
          = (factorTwos fuel (s / 2)).1 * 2 ^ (factorTwos fuel (s / 2)).2 * 2 := by ring
        _ = s / 2 * 2 := by rw [hv]
        _ = s := by omega
    · rw [if_neg he]
      simp
      omega

theorem findNonResidue_spec (p : ℕ) : ∀ fuel n0,
    (∃ m, n0 ≤ m ∧ m < n0 + fuel ∧ legendre_symbol m p = -1) →
    legendre_symbol (findNonResidue p fuel n0) p = -1 := by
  intro fuel
  induction fuel with
  | zero =>
    intro n0 ⟨m, h1, h2, _⟩
    omega
  | succ fuel ih =>
    intro n0 hex
    rw [findNonResidue]
    by_cases h : legendre_symbol n0 p = -1
    · rw [if_pos h]; exact h
    · rw [if_neg h]
      apply ih
      obtain ⟨m, h1, h2, h3⟩ := hex
      have : m ≠ n0 := fun he => h (he ▸ h3)
      exact ⟨m, by omega, by omega, h3⟩

/-! ### The Tonelli-Shanks loops -/

theorem findMAux_spec (p : ℕ) (hp1 : 1 < p) (B0 : ZMod p) :
    ∀ (steps t m0 : ℕ), t < p → (t : ZMod p) = B0 ^ 2 ^ m0 →
      (∀ j, j < m0 → B0 ^ 2 ^ j ≠ 1) →
      (∃ j, m0 ≤ j ∧ j < m0 + steps ∧ B0 ^ 2 ^ j = 1) →
      B0 ^ 2 ^ findMAux p steps t m0 = 1 ∧
        ∀ j, j < findMAux p steps t m0 → B0 ^ 2 ^ j ≠ 1 := by
  intro steps
  induction steps with
  | zero =>
    intro t m0 _ _ _ hex
    obtain ⟨j, h1, h2, _⟩ := hex
    omega
  | succ steps ih =>
    intro t m0 ht hcast hmin hex
    rw [findMAux]
    by_cases h1 : t = 1
    · rw [if_pos h1]
      subst h1
      rw [Nat.cast_one] at hcast
      exact ⟨hcast.symm, hmin⟩
    · rw [if_neg h1]
      have hne : B0 ^ 2 ^ m0 ≠ 1 := by
        intro h
        apply h1
        apply natCast_inj_of_lt ht hp1
        rw [hcast, h, Nat.cast_one]
      apply ih (t * t % p) (m0 + 1)
      · exact Nat.mod_lt _ (by omega)
      · rw [ZMod.natCast_mod, Nat.cast_mul, hcast, ← pow_add]
        congr 1
        rw [pow_succ]
        ring
      · intro j hj
        rcases Nat.lt_or_ge j m0 with h | h
        · exact hmin j h
        · have : j = m0 := by omega
          subst this
          exact hne
      · obtain ⟨j, h1', h2', h3'⟩ := hex
        have : j ≠ m0 := fun he => hne (he ▸ h3')
        exact ⟨j, by omega, by omega, h3'⟩

theorem sqrtLoop_correct (p : ℕ) [hp : Fact p.Prime] (A : ZMod p) :
    ∀ (fuel x b g r : ℕ), 1 ≤ r → r ≤ fuel → x < p → b < p → g < p →
      ((x : ZMod p)) ^ 2 = A * (b : ZMod p) →
      (b : ZMod p) ^ 2 ^ (r - 1) = 1 →
      (g : ZMod p) ^ 2 ^ (r - 1) = -1 →
      sqrtLoop p fuel x b g r < p ∧ ((sqrtLoop p fuel x b g r : ℕ) : ZMod p) ^ 2 = A := by
  intro fuel
  induction fuel with
  | zero => intro x b g r h1 hr; omega
  | succ fuel ih =>
    intro x b g r h1 hr hx hb hg inv1 inv2 inv3
    have hp1 : 1 < p := hp.out.one_lt
    obtain ⟨hm1, hmin⟩ := findMAux_spec p hp1 (b : ZMod p) r b 0 hb
      (by rw [pow_zero, pow_one]) (by intro j hj; omega)
      ⟨r - 1, by omega, by omega, inv2⟩
    set M := findMAux p r b 0 with hM
    have hMle : M ≤ r - 1 := by
      by_contra hcon
      exact hmin (r - 1) (by omega) inv2
    simp only [sqrtLoop]
    rw [← hM]
    by_cases hM0 : M = 0
    · rw [if_pos hM0]
      have hbone : (b : ZMod p) = 1 := by
        rw [hM0, pow_zero, pow_one] at hm1
        exact hm1
      refine ⟨hx, ?_⟩
      rw [inv1, hbone, mul_one]
    · rw [if_neg hM0]
      have hM1 : 1 ≤ M := by omega
      -- abbreviations for the updated state
      have hgs : (powMod g (2 ^ (r - M - 1)) p : ZMod p) = (g : ZMod p) ^ 2 ^ (r - M - 1) :=
        natCast_powMod g _ p
      have hg2cast : ((powMod g (2 ^ (r - M - 1)) p * powMod g (2 ^ (r - M - 1)) p % p : ℕ) :
          ZMod p) = (g : ZMod p) ^ 2 ^ (r - M) := by
        rw [ZMod.natCast_mod, Nat.cast_mul, hgs, ← pow_add]
        congr 1
        have h2 : 2 ^ (r - M - 1) * 2 = 2 ^ (r - M) := by
          rw [← pow_succ]; congr 1; omega
        omega
      have hbneg : (b : ZMod p) ^ 2 ^ (M - 1) = -1 := by
        have hsq : (b : ZMod p) ^ 2 ^ (M - 1) * (b : ZMod p) ^ 2 ^ (M - 1) = 1 := by
          rw [← pow_add]
          have h2 : 2 ^ (M - 1) * 2 = 2 ^ M := by
            rw [← pow_succ]; congr 1; omega
          have h3 : 2 ^ (M - 1) + 2 ^ (M - 1) = 2 ^ M := by omega
          rw [h3, hm1]
        rcases mul_self_eq_one_iff.mp hsq with h | h
        · exact absurd h (hmin (M - 1) (by omega))
        · exact h
      have hg2neg : ((powMod g (2 ^ (r - M - 1)) p * powMod g (2 ^ (r - M - 1)) p % p : ℕ) :
          ZMod p) ^ 2 ^ (M - 1) = -1 := by
        rw [hg2cast, ← pow_mul]
        have : 2 ^ (r - M) * 2 ^ (M - 1) = 2 ^ (r - 1) := by
          rw [← pow_add]
          congr 1
          omega
        rw [this, inv3]
      apply ih
      · exact hM1
      · omega
      · exact Nat.mod_lt _ (by omega)
      · exact Nat.mod_lt _ (by omega)
      · exact Nat.mod_lt _ (by omega)
      · -- new invariant 1 : x2² = A·b2
        rw [ZMod.natCast_mod, Nat.cast_mul, ZMod.natCast_mod, Nat.cast_mul, mul_pow, inv1,
          hgs, hg2cast, ← pow_mul]
        have h2 : 2 ^ (r - M - 1) * 2 = 2 ^ (r - M) := by
          rw [← pow_succ]; congr 1; omega
        rw [h2]
        ring
      · -- new invariant 2 : b2^(2^(M-1)) = 1
        rw [ZMod.natCast_mod, Nat.cast_mul, mul_pow, hbneg, hg2neg]
        ring
      · -- new invariant 3 : g2^(2^(M-1)) = -1
        exact hg2neg

/-! ### Correctness of Sqrt -/

theorem exists_root_iff_isSquare (p : ℕ) (hp1 : 1 < p) (a : ℕ) (ha : a < p) :
    (∃ r0 : ℕ, r0 * r0 % p = a) ↔ IsSquare ((a : ℕ) : ZMod p) := by
  constructor
  · rintro ⟨r0, h⟩
    refine ⟨(r0 : ZMod p), ?_⟩
    rw [← h, ZMod.natCast_mod, Nat.cast_mul]
  · rintro ⟨s, hs⟩
    haveI : NeZero p := ⟨by omega⟩
    refine ⟨s.val, ?_⟩
    have hval : (s * s).val = s.val * s.val % p := ZMod.val_mul s s
    rw [← hval, ← hs, ZMod.val_cast_of_lt ha]

theorem pow_half_of_nonsquare (p : ℕ) [hp : Fact p.Prime] (x : ZMod p) (h0 : x ≠ 0)
    (hs : ¬ IsSquare x) : x ^ (p / 2) = -1 := by
  rcases ZMod.pow_div_two_eq_neg_one_or_one p h0 with h | h
  · exact absurd ((ZMod.euler_criterion p h0).mpr h) hs
  · exact h

theorem natCast_ne_zero_of_lt {p a : ℕ} (hp : 0 < p) (ha : a < p) (h : a ≠ 0) :
    (a : ZMod p) ≠ 0 := by
  intro h0
  rw [legendre_zero_iff a p hp, Nat.mod_eq_of_lt ha] at h0
  exact h h0

theorem legendre_symbol_zero (p : ℕ) : legendre_symbol 0 p = 0 := by
  unfold legendre_symbol
  rw [if_pos (Nat.zero_mod p)]

theorem Sqrt_of_square (c : Curve) [hp : Fact (Nat.Prime c.P)] (hodd : c.P ≠ 2)
    (a : ℕ) (ha : a < c.P) (hsq : ∃ r0 : ℕ, r0 * r0 % c.P = a) :
    c.Sqrt a < c.P ∧ c.Sqrt a * c.Sqrt a % c.P = a := by
  have hp1 : 1 < c.P := hp.out.one_lt
  have hoddp : c.P % 2 = 1 := Nat.odd_iff.mp (hp.out.odd_of_ne_two hodd)
  by_cases hleg : legendre_symbol a c.P = 1
  case neg =>
    -- the routine returns 0; the input must have been 0
    have ha0 : a = 0 := by
      by_contra ha0
      exact hleg (legendre_eq_one c.P hodd a
        (natCast_ne_zero_of_lt (by omega) ha ha0)
        ((exists_root_iff_isSquare c.P hp1 a ha).mp hsq))
    have hz : c.Sqrt a = 0 := by
      simp only [Curve.Sqrt]
      rw [if_pos hleg]
    subst ha0
    rw [hz]
    exact ⟨by omega, by simp⟩
  case pos =>
    have ha0 : a ≠ 0 := by
      rintro rfl
      rw [legendre_symbol_zero] at hleg
      exact absurd hleg (by decide)
    have haz : ((a : ℕ) : ZMod c.P) ≠ 0 := natCast_ne_zero_of_lt (by omega) ha ha0
    have hsqz : IsSquare ((a : ℕ) : ZMod c.P) :=
      (exists_root_iff_isSquare c.P hp1 a ha).mp hsq
    have heuler : ((a : ℕ) : ZMod c.P) ^ (c.P / 2) = 1 :=
      (ZMod.euler_criterion c.P haz).mp hsqz
    by_cases h4 : c.P % 4 = 3
    case pos =>
      -- fast path : p ≡ 3 (mod 4)
      have hz : c.Sqrt a = powMod a ((c.P + 1) / 4) c.P := by
        simp only [Curve.Sqrt]
        rw [if_neg (not_not_intro hleg), if_neg ha0, if_neg hodd, if_pos h4]
      rw [hz]
      refine ⟨powMod_lt a _ c.P (by omega), ?_⟩
      apply natCast_inj_of_lt (Nat.mod_lt _ (by omega)) ha
      rw [ZMod.natCast_mod, Nat.cast_mul, natCast_powMod, ← pow_add]
      have hexp : (c.P + 1) / 4 + (c.P + 1) / 4 = c.P / 2 + 1 := by omega
      rw [hexp, pow_succ, heuler, one_mul]
    case neg =>
      -- general Tonelli-Shanks path
      have h41 : c.P % 4 = 1 := by omega
      obtain ⟨hsodd, hsval⟩ := factorTwos_spec (c.P - 1) (c.P - 1) (by omega) le_rfl
      set s := (factorTwos (c.P - 1) (c.P - 1)).1 with hs
      set e := (factorTwos (c.P - 1) (c.P - 1)).2 with he
      have he2 : 2 ≤ e := by
        by_contra hcon
        interval_cases e
        · rw [pow_zero, mul_one] at hsval; omega
        · rw [pow_one] at hsval; omega
      -- a quadratic non-residue exists and the search finds one
      haveI : NeZero c.P := ⟨by omega⟩
      obtain ⟨u, hu⟩ := @FiniteField.exists_nonsquare
        (ZMod c.P) _ _ (by rw [ZMod.ringChar_zmod_n]; exact hodd)
      have hu0 : u ≠ 0 := by
        rintro rfl
        exact hu ⟨0, by ring⟩
      have huval : ((u.val : ℕ) : ZMod c.P) = u := by
        rw [ZMod.natCast_val, ZMod.cast_id]
      have hu1 : u.val ≠ 1 := by
        intro h
        apply hu
        refine ⟨1, ?_⟩
        rw [← huval, h, Nat.cast_one, mul_one]
      have huv0 : u.val ≠ 0 := fun h => hu0 (by rwa [ZMod.val_eq_zero] at h)
      have hulegendre : legendre_symbol u.val c.P = -1 := by
        apply legendre_eq_neg_one c.P hodd u.val
        · rw [huval]; exact hu0
        · rw [huval]; exact hu
      have hfound := findNonResidue_spec c.P c.P 2
        ⟨u.val, by omega, by have := u.val_lt; omega, hulegendre⟩
      set n := findNonResidue c.P c.P 2 with hn
      obtain ⟨hn0, hnsq⟩ := nonsquare_of_legendre_neg_one c.P hodd n hfound
      -- the routine takes the general branch
      have hz : c.Sqrt a = sqrtLoop c.P (e + 1) (powMod a ((s + 1) / 2) c.P)
          (powMod a s c.P) (powMod n s c.P) e := by
        simp only [Curve.Sqrt]
        rw [if_neg (not_not_intro hleg), if_neg ha0, if_neg hodd, if_neg h4, hs, he, hn]
      -- exponent bookkeeping
      have hhalf : s * 2 ^ (e - 1) = c.P / 2 := by
        have h' : s * 2 ^ (e - 1) * 2 = c.P - 1 := by
          rw [mul_assoc, ← pow_succ]
          have he1 : e - 1 + 1 = e := by omega
          rw [he1]
          exact hsval
        omega
      -- invariants for the main loop
      have hinv1 : ((powMod a ((s + 1) / 2) c.P : ℕ) : ZMod c.P) ^ 2 =
          ((a : ℕ) : ZMod c.P) * ((powMod a s c.P : ℕ) : ZMod c.P) := by
        rw [natCast_powMod, natCast_powMod, ← pow_mul]
        have hse : (s + 1) / 2 * 2 = s + 1 := by omega
        rw [hse, pow_succ]
        ring
      have hinv2 : ((powMod a s c.P : ℕ) : ZMod c.P) ^ 2 ^ (e - 1) = 1 := by
        rw [natCast_powMod, ← pow_mul, hhalf]
        exact heuler
      have hinv3 : ((powMod n s c.P : ℕ) : ZMod c.P) ^ 2 ^ (e - 1) = -1 := by
        rw [natCast_powMod, ← pow_mul, hhalf]
        exact pow_half_of_nonsquare c.P (n : ZMod c.P) hn0 hnsq
      have hmain := sqrtLoop_correct c.P ((a : ℕ) : ZMod c.P) (e + 1)
        (powMod a ((s + 1) / 2) c.P) (powMod a s c.P) (powMod n s c.P) e
        (by omega) (by omega)
        (powMod_lt _ _ _ (by omega)) (powMod_lt _ _ _ (by omega)) (powMod_lt _ _ _ (by omega))
        hinv1 hinv2 hinv3
      rw [hz]
      refine ⟨hmain.1, ?_⟩
      apply natCast_inj_of_lt (Nat.mod_lt _ (by omega)) ha
      rw [ZMod.natCast_mod, Nat.cast_mul, ← sq, hmain.2]

theorem Sqrt_of_nonsquare (c : Curve) [hp : Fact (Nat.Prime c.P)] (hodd : c.P ≠ 2)
    (a : ℕ) (ha : a < c.P) (hns : ¬ ∃ r0 : ℕ, r0 * r0 % c.P = a) : c.Sqrt a = 0 := by
  have hp1 : 1 < c.P := hp.out.one_lt
  have ha0 : a ≠ 0 := by
    rintro rfl
    exact hns ⟨0, by simp⟩
  have haz : ((a : ℕ) : ZMod c.P) ≠ 0 :=
    natCast_ne_zero_of_lt (by omega) ha ha0
  have hnsq : ¬ IsSquare ((a : ℕ) : ZMod c.P) := fun h =>
    hns ((exists_root_iff_isSquare c.P hp1 a ha).mpr h)
  have hleg := legendre_eq_neg_one c.P hodd a haz hnsq
  simp only [Curve.Sqrt]
  rw [if_pos (by rw [hleg]; decide)]

theorem Sqrt_fast_path (c : Curve) [hp : Fact (Nat.Prime c.P)] (hodd : c.P ≠ 2)
    (h3 : c.P % 4 = 3) (a : ℕ) (ha : a < c.P) (hsq : ∃ r0 : ℕ, r0 * r0 % c.P = a) :
    c.Sqrt a = powMod a ((c.P + 1) / 4) c.P := by
  have hp1 : 1 < c.P := hp.out.one_lt
  by_cases ha0 : a = 0
  · subst ha0
    have hlz : legendre_symbol 0 c.P = 0 := by
      unfold legendre_symbol
      rw [if_pos (Nat.zero_mod c.P)]
    have hSqrt : c.Sqrt 0 = 0 := by
      simp only [Curve.Sqrt]
      rw [if_pos (by rw [hlz]; decide)]
    rw [hSqrt, powMod_eq]
    have hk : 0 < (c.P + 1) / 4 := by omega
    rw [Nat.zero_pow hk, Nat.zero_mod]
  · have haz : ((a : ℕ) : ZMod c.P) ≠ 0 :=
      natCast_ne_zero_of_lt (by omega) ha ha0
    have hleg := legendre_eq_one c.P hodd a haz
      ((exists_root_iff_isSquare c.P hp1 a ha).mp hsq)
    simp only [Curve.Sqrt]
    rw [if_neg (by rw [hleg]; simp), if_neg ha0, if_neg (by omega), if_pos h3]

/-! ### C4: the modular square-root routine -/

/-- C4: for a curve whose modulus `P` is an odd prime (as for all four
registered curves) and any `a < P`: if `a` is zero or a quadratic residue,
`Sqrt a` is a square root of `a` modulo `P`; if `a` has no modular square
root, `Sqrt a = 0`; and when `P ≡ 3 (mod 4)` and `a` is a residue, the
result is exactly `a^((P+1)/4) mod P`. -/
theorem C4_sqrt (c : Curve) [hp : Fact (Nat.Prime c.P)] (hodd : c.P ≠ 2)
    (a : ℕ) (ha : a < c.P) :
    ((a = 0 ∨ ∃ r0 : ℕ, r0 * r0 % c.P = a) → c.Sqrt a * c.Sqrt a % c.P = a) ∧
    ((¬ ∃ r0 : ℕ, r0 * r0 % c.P = a) → c.Sqrt a = 0) ∧
    (c.P % 4 = 3 → (∃ r0 : ℕ, r0 * r0 % c.P = a) →
      c.Sqrt a = powMod a ((c.P + 1) / 4) c.P) := by
  refine ⟨?_, Sqrt_of_nonsquare c hodd a ha, fun h3 hsq => Sqrt_fast_path c hodd h3 a ha hsq⟩
  intro h
  have hsq : ∃ r0 : ℕ, r0 * r0 % c.P = a := by
    rcases h with h | h
    · exact ⟨0, by simp [h]⟩
    · exact h
  exact (Sqrt_of_square c hodd a ha hsq).2

/-- Witness for `C4_sqrt` on the concrete curve over `F₁₁` with the
residue `5 = 4²`. -/
theorem C4_sqrt_witness : curve11.Sqrt 5 * curve11.Sqrt 5 % curve11.P = 5 := by
  haveI : Fact (Nat.Prime curve11.P) := ⟨by norm_num [curve11]⟩
  exact (C4_sqrt curve11 (by decide) 5 (by decide)).1 (Or.inr ⟨4, by decide⟩)

/-! ### C1 (amended): the compression round-trip on full-width points -/

theorem natCast_sub_eq_neg (p y : ℕ) (hy : y ≤ p) :
    ((p - y : ℕ) : ZMod p) = -(y : ZMod p) := by
  have : ((p - y : ℕ) : ZMod p) = (p : ZMod p) - (y : ZMod p) := by
    push_cast [Nat.cast_sub hy]
    ring
  rw [this, ZMod.natCast_self]
  ring

theorem DecompressPoint_valid (c : Curve) (t : ℕ) (rest : List ℕ)
    (ht : t = 3 ∨ t = 2) (hlen : rest.length = (c.BitSize + 7) >>> 3) :
    c.DecompressPoint (t :: rest) =
      (if c.Sqrt ((fromBytes rest * fromBytes rest % c.P * fromBytes rest % c.P + c.B) % c.P)
          = 0 then DecompressResult.notOnCurve
       else if (if t = 3 then 1 else 0) ≠
           c.Sqrt ((fromBytes rest * fromBytes rest % c.P * fromBytes rest % c.P + c.B)
             % c.P) % 2 then
         DecompressResult.ok (fromBytes rest)
           (c.P - c.Sqrt ((fromBytes rest * fromBytes rest % c.P * fromBytes rest % c.P + c.B)
             % c.P))
       else
         DecompressResult.ok (fromBytes rest)
           (c.Sqrt ((fromBytes rest * fromBytes rest % c.P * fromBytes rest % c.P + c.B)
             % c.P))) := by
  show (if t = 3 ∨ t = 2 then _ else _) = _
  rw [if_pos ht]
  show (if (t :: rest).length ≠ 1 + ((c.BitSize + 7) >>> 3) then _ else _) = _
  rw [if_neg (by simp only [List.length_cons, hlen, ne_eq]; omega)]

/-- C1 (amended): for every curve whose modulus `P` is an odd prime and every
on-curve point `(x, y)` with `0 ≤ x, y < P`, `y ≠ 0`, whose `x` occupies the
full `ceil(BitSize/8)` bytes, decompression inverts compression exactly. -/
theorem C1_amended (c : Curve) [hp : Fact (Nat.Prime c.P)] (hodd : c.P ≠ 2)
    (x y : ℕ) (hx : x < c.P) (hy : y < c.P) (hy0 : y ≠ 0)
    (hoc : c.IsOnCurve (x : ℤ) (y : ℤ) = true)
    (hL1 : 1 ≤ (c.BitSize + 7) >>> 3)
    (hxlo : 256 ^ ((c.BitSize + 7) >>> 3 - 1) ≤ x)
    (hxhi : x < 256 ^ ((c.BitSize + 7) >>> 3)) :
    c.DecompressPoint (c.CompressPoint x y) = .ok x y := by
  have hp1 : 1 < c.P := hp.out.one_lt
  have hoddp : c.P % 2 = 1 := Nat.odd_iff.mp (hp.out.odd_of_ne_two hodd)
  -- the encoded x occupies exactly the required width
  have hlenx : (natBytes x).length = (c.BitSize + 7) >>> 3 :=
    natBytes_length_eq x _ hL1 hxlo hxhi
  -- the curve equation, at the Nat level
  have hocn : y * y % c.P = (x * x * x + c.B) % c.P := by
    have h' : ((x : ℤ) * x * x + (c.B : ℤ)) % (c.P : ℤ) = (y : ℤ) * y % (c.P : ℤ) := by
      have h := hoc
      simp only [Curve.IsOnCurve, beq_iff_eq] at h
      exact h
    have hcast : (((x * x * x + c.B) % c.P : ℕ) : ℤ) = ((y * y % c.P : ℕ) : ℤ) := by
      rw [Int.natCast_mod, Int.natCast_mod]
      push_cast
      exact h'
    exact (Nat.cast_injective hcast).symm
  -- the value whose square root is taken
  have hY2 : (fromBytes (natBytes x) * fromBytes (natBytes x) % c.P * fromBytes (natBytes x)
      % c.P + c.B) % c.P = (x * x * x + c.B) % c.P := by
    rw [natBytes_fromBytes, Nat.mod_mul_mod, Nat.mod_add_mod]
  set t0 := (x * x * x + c.B) % c.P with ht0
  have ht0lt : t0 < c.P := Nat.mod_lt _ (by omega)
  have hsq : ∃ r0 : ℕ, r0 * r0 % c.P = t0 := ⟨y, hocn⟩
  obtain ⟨hrlt, hr2⟩ := Sqrt_of_square c hodd t0 ht0lt hsq
  set r := c.Sqrt t0 with hr
  -- the root is nonzero
  have hr0 : r ≠ 0 := by
    intro h0
    rw [h0] at hr2
    simp at hr2
    have hyy : y * y % c.P = 0 := by omega
    have hdvd : c.P ∣ y * y := Nat.dvd_of_mod_eq_zero hyy
    have hdy : c.P ∣ y := by
      rcases (Nat.Prime.dvd_mul hp.out).mp hdvd with h | h <;> exact h
    exact hy0 (Nat.eq_zero_of_dvd_of_lt hdy hy)
  -- the root is y or P - y
  have hcast2 : ((r : ℕ) : ZMod c.P) ^ 2 = ((y : ℕ) : ZMod c.P) ^ 2 := by
    have hr2' : ((r * r % c.P : ℕ) : ZMod c.P) = ((y * y % c.P : ℕ) : ZMod c.P) := by
      rw [hr2, hocn]
    rw [ZMod.natCast_mod, ZMod.natCast_mod] at hr2'
    push_cast at hr2'
    rw [sq, sq]
    exact hr2'
  have hry : r = y ∨ r = c.P - y := by
    have hzero : (((r : ℕ) : ZMod c.P) - ((y : ℕ) : ZMod c.P)) *
        (((r : ℕ) : ZMod c.P) + ((y : ℕ) : ZMod c.P)) = 0 := by
      linear_combination hcast2
    rcases mul_eq_zero.mp hzero with h | h
    · left
      exact natCast_inj_of_lt hrlt hy (by linear_combination h)
    · right
      have : ((r : ℕ) : ZMod c.P) = ((c.P - y : ℕ) : ZMod c.P) := by
        rw [natCast_sub_eq_neg c.P y (by omega)]
        linear_combination h
      exact natCast_inj_of_lt hrlt (by omega) this
  -- now walk the decompression code
  have hmods : (x * x % c.P * x % c.P + c.B) % c.P = t0 := by
    rw [Nat.mod_mul_mod, Nat.mod_add_mod, ht0]
  have hcp : c.CompressPoint x y = (if y % 2 = 1 then 3 else 2) :: natBytes x := rfl
  rw [hcp]
  by_cases hpar : y % 2 = 1
  · rw [if_pos hpar,
      DecompressPoint_valid c 3 (natBytes x) (Or.inl rfl) hlenx]
    simp only [natBytes_fromBytes, hmods, ← hr]
    rw [if_neg hr0]
    rcases hry with hre | hre
    · rw [if_neg (by simp; omega)]
      rw [hre]
    · rw [if_pos (by simp; omega)]
      rw [hre]
      congr 1
      omega
  · rw [if_neg hpar,
      DecompressPoint_valid c 2 (natBytes x) (Or.inr rfl) hlenx]
    simp only [natBytes_fromBytes, hmods, ← hr]
    rw [if_neg hr0]
    rcases hry with hre | hre
    · rw [if_neg (by simp; omega)]
      rw [hre]
    · rw [if_pos (by simp; omega)]
      rw [hre]
      congr 1
      omega

/-- Witness for `C1_amended` on the concrete curve over `F₁₁` with the
on-curve point `(2, 3)`. -/
theorem C1_amended_witness :
    curve11.DecompressPoint (curve11.CompressPoint 2 3) = .ok 2 3 := by
  haveI : Fact (Nat.Prime curve11.P) := ⟨by norm_num [curve11]⟩
  exact C1_amended curve11 (by decide) 2 3 (by decide) (by decide) (by decide)
    (by decide) (by decide) (by decide) (by decide)

/-! ### Correctness of the modular-inverse model -/

theorem egcd_spec : ∀ fuel a b, b ≤ fuel →
    (egcd fuel a b).1 = Nat.gcd a b ∧
    ((egcd fuel a b).2.1 * a + (egcd fuel a b).2.2 * b : ℤ) = ((egcd fuel a b).1 : ℤ) := by
  intro fuel
  induction fuel with
  | zero =>
    intro a b hb
    have hb0 : b = 0 := by omega
    subst hb0
    simp [egcd]
  | succ fuel ih =>
    intro a b hb
    rw [egcd]
    by_cases hb0 : b = 0
    · subst hb0
      simp
    · rw [if_neg hb0]
      have hmod : a % b ≤ fuel := by
        have : a % b < b := Nat.mod_lt a (by omega)
        omega
      obtain ⟨ihg, ihb⟩ := ih b (a % b) hmod
      constructor
      · show (egcd fuel b (a % b)).1 = _
        rw [ihg, Nat.gcd_comm b (a % b), ← Nat.gcd_rec b a, Nat.gcd_comm b a]
      · show ((egcd fuel b (a % b)).2.2 * a +
          ((egcd fuel b (a % b)).2.1 - (a / b : ℕ) * (egcd fuel b (a % b)).2.2) * b : ℤ) = _
        have hd : ((b : ℤ) * ((a / b : ℕ) : ℤ) + ((a % b : ℕ) : ℤ)) = (a : ℤ) := by
          exact_mod_cast Nat.div_add_mod a b
        linear_combination ihb - (egcd fuel b (a % b)).2.2 * hd

theorem modInverse_spec (g : ℤ) (n : ℕ) (hn : 1 < n)
    (hcop : Nat.gcd n ((g % (n : ℤ)).toNat) = 1) :
    ∃ zi : ℤ, modInverse g n = some zi ∧ 0 ≤ zi ∧ zi < n ∧
      (zi : ZMod n) * (g : ZMod n) = 1 := by
  have ha : (g % (n : ℤ)).toNat < n := by
    have h1 : 0 ≤ g % (n : ℤ) := Int.emod_nonneg g (by omega)
    have h2 : g % (n : ℤ) < n := Int.emod_lt_of_pos g (by omega)
    omega
  obtain ⟨hg, hbz⟩ := egcd_spec n n ((g % (n : ℤ)).toNat) (by omega)
  refine ⟨(egcd n n ((g % (n : ℤ)).toNat)).2.2 % (n : ℤ), ?_, ?_, ?_, ?_⟩
  · unfold modInverse
    rw [if_pos (by rw [hg]; exact hcop)]
  · exact Int.emod_nonneg _ (by omega)
  · exact Int.emod_lt_of_pos _ (by omega)
  · rw [hg, hcop] at hbz
    have hgz : (((g % (n : ℤ)).toNat : ℕ) : ZMod n) = (g : ZMod n) := by
      have h1 : (((g % (n : ℤ)).toNat : ℕ) : ℤ) = g % (n : ℤ) :=
        Int.toNat_of_nonneg (Int.emod_nonneg g (by omega))
      calc (((g % (n : ℤ)).toNat : ℕ) : ZMod n)
          = ((((g % (n : ℤ)).toNat : ℕ) : ℤ) : ZMod n) := by push_cast; rfl
        _ = ((g % (n : ℤ) : ℤ) : ZMod n) := by rw [h1]
        _ = (g : ZMod n) := ZMod.intCast_mod g n
    have hcast := congrArg (fun t : ℤ => (t : ZMod n)) hbz
    push_cast at hcast
    rw [ZMod.natCast_self] at hcast
    -- hcast : s * 0 + t * a = 1 in ZMod n
    rw [ZMod.intCast_mod, ← hgz]
    push_cast
    linear_combination hcast

theorem intCast_eq_val_of_lt {p : ℕ} [NeZero p] (t : ℤ) (h0 : 0 ≤ t) (h1 : t < (p : ℤ))
    (X : ZMod p) (h : (t : ZMod p) = X) : t = (X.val : ℤ) := by
  have ht : t = ((t.toNat : ℕ) : ℤ) := (Int.toNat_of_nonneg h0).symm
  have htlt : t.toNat < p := by omega
  have hc : ((t.toNat : ℕ) : ZMod p) = X := by
    rw [← h, ht]
    push_cast
    rfl
  rw [ht, ← hc, ZMod.val_cast_of_lt htlt]

/-- The sign-correction branches of the source are invisible modulo `P`. -/
theorem intCast_signFix (p : ℕ) (v : ℤ) :
    (((if v < 0 then v + (p : ℤ) else v) : ℤ) : ZMod p) = (v : ZMod p) := by
  split_ifs with h
  · push_cast
    rw [ZMod.natCast_self]
    ring
  · rfl

theorem affineFromJacobian_represents (c : Curve) [hp : Fact (Nat.Prime c.P)]
    (x y z : ℤ) (X Y : ZMod c.P) (h : Represents c x y z X Y) :
    c.affineFromJacobian x y z = some ((X.val : ℤ), (Y.val : ℤ)) := by
  obtain ⟨hz, hxc, hyc⟩ := h
  have hp1 : 1 < c.P := hp.out.one_lt
  haveI : NeZero c.P := ⟨by omega⟩
  -- z is invertible modulo the prime P
  have hza : ((((z % (c.P : ℤ)).toNat : ℕ)) : ZMod c.P) = (z : ZMod c.P) := by
    have h1 : (((z % (c.P : ℤ)).toNat : ℕ) : ℤ) = z % (c.P : ℤ) :=
      Int.toNat_of_nonneg (Int.emod_nonneg z (by omega))
    calc (((z % (c.P : ℤ)).toNat : ℕ) : ZMod c.P)
        = ((((z % (c.P : ℤ)).toNat : ℕ) : ℤ) : ZMod c.P) := by push_cast; rfl
      _ = ((z % (c.P : ℤ) : ℤ) : ZMod c.P) := by rw [h1]
      _ = (z : ZMod c.P) := ZMod.intCast_mod z c.P
  have hand : (z % (c.P : ℤ)).toNat ≠ 0 := by
    intro h0
    apply hz
    rw [← hza, h0]
    simp
  have hnd : ¬ c.P ∣ (z % (c.P : ℤ)).toNat := by
    intro hdvd
    have hlt : (z % (c.P : ℤ)).toNat < c.P := by
      have h2 : z % (c.P : ℤ) < c.P := Int.emod_lt_of_pos z (by omega)
      omega
    exact hand (Nat.eq_zero_of_dvd_of_lt hdvd hlt)
  have hcop : Nat.gcd c.P ((z % (c.P : ℤ)).toNat) = 1 :=
    (Nat.Prime.coprime_iff_not_dvd hp.out).mpr hnd
  obtain ⟨zi, hzi, hzi0, hzilt, hzinv⟩ := modInverse_spec z c.P hp1 hcop
  have hzinv' : (zi : ZMod c.P) = (z : ZMod c.P)⁻¹ :=
    eq_inv_of_mul_eq_one_left hzinv
  unfold Curve.affineFromJacobian
  rw [hzi]
  have hxOut : ((x * (zi * zi) % (c.P : ℤ) : ℤ) : ZMod c.P) = X := by
    rw [ZMod.intCast_mod]
    push_cast
    rw [hxc, hzinv']
    field_simp
    left
    ring
  have hyOut : ((y * (zi * zi * zi) % (c.P : ℤ) : ℤ) : ZMod c.P) = Y := by
    rw [ZMod.intCast_mod]
    push_cast
    rw [hyc, hzinv']
    field_simp
    ring_nf
    tauto
  have hx1 := intCast_eq_val_of_lt (x * (zi * zi) % (c.P : ℤ))
    (Int.emod_nonneg _ (by omega)) (Int.emod_lt_of_pos _ (by omega)) X hxOut
  have hy1 := intCast_eq_val_of_lt (y * (zi * zi * zi) % (c.P : ℤ))
    (Int.emod_nonneg _ (by omega)) (Int.emod_lt_of_pos _ (by omega)) Y hyOut
  rw [show y * (zi * zi * zi) = y * (zi * zi * zi) from rfl] at hy1
  simp only []
  rw [← hx1, ← hy1]

/-! ### The Weierstrass-curve bridge -/

theorem curveW_equation_iff (c : Curve) (X Y : ZMod c.P) :
    (curveW c).Equation X Y ↔ Y ^ 2 = X ^ 3 + (c.B : ZMod c.P) := by
  rw [WeierstrassCurve.Affine.equation_iff]
  simp [curveW]

theorem curveW_negY (c : Curve) (X Y : ZMod c.P) : (curveW c).negY X Y = -Y := by
  simp [WeierstrassCurve.Affine.negY, curveW]

theorem isOnCurve_iff_equation (c : Curve) (x y : ℕ) :
    c.IsOnCurve (x : ℤ) (y : ℤ) = true ↔
      (curveW c).Equation ((x : ℕ) : ZMod c.P) ((y : ℕ) : ZMod c.P) := by
  rw [curveW_equation_iff]
  simp only [Curve.IsOnCurve, beq_iff_eq]
  constructor
  · intro h
    have hz : (((x : ℤ) * x * x + (c.B : ℤ) : ℤ) : ZMod c.P) =
        (((y : ℤ) * y : ℤ) : ZMod c.P) := (ZMod.intCast_eq_intCast_iff _ _ _).mpr h
    push_cast at hz
    linear_combination - hz
  · intro h
    apply (ZMod.intCast_eq_intCast_iff _ _ _).mp
    push_cast
    linear_combination - h


theorem Y_ne_negY_of_two_smul_ne (c : Curve) [hp : Fact (Nat.Prime c.P)]
    (hp2 : (2 : ZMod c.P) ≠ 0)
    (X Y : ZMod c.P) (hY : Y ≠ 0) : Y ≠ (curveW c).negY X Y := by
  rw [curveW_negY]
  intro h
  have h2 : (2 : ZMod c.P) * Y = 0 := by linear_combination h
  rcases mul_eq_zero.mp h2 with h | h
  · exact hp2 h
  · exact hY h

theorem doubleJacobian_represents (c : Curve) [hp : Fact (Nat.Prime c.P)]
    (hp2 : (2 : ZMod c.P) ≠ 0) (x y z : ℤ) (X Y : ZMod c.P)
    (hrep : Represents c x y z X Y) (hY : Y ≠ 0) :
    Represents c (c.doubleJacobian x y z).1 (c.doubleJacobian x y z).2.1
      (c.doubleJacobian x y z).2.2
      ((curveW c).addX X X ((curveW c).slope X X Y Y))
      ((curveW c).addY X X Y ((curveW c).slope X X Y Y)) := by
  obtain ⟨hz, hxc, hyc⟩ := hrep
  have hYne : Y ≠ (curveW c).negY X Y := Y_ne_negY_of_two_smul_ne c hp2 X Y hY
  have h2Y : (2 : ZMod c.P) * Y ≠ 0 := mul_ne_zero hp2 hY
  have hLs : (curveW c).slope X X Y Y = 3 * X ^ 2 / (2 * Y) := by
    rw [WeierstrassCurve.Affine.slope_of_Y_ne rfl hYne, curveW_negY]
    show (3 * X ^ 2 + 2 * (curveW c).a₂ * X + (curveW c).a₄ - (curveW c).a₁ * Y) / _ = _
    simp only [curveW]
    congr 1
    · ring
    · ring
  -- casts of the three computed coordinates
  have hx3c : (((c.doubleJacobian x y z).1 : ℤ) : ZMod c.P) =
      3 * ((x : ZMod c.P) * x) * (3 * ((x : ZMod c.P) * x)) -
        2 * (2 * (((x : ZMod c.P) + (y : ZMod c.P) * y) * ((x : ZMod c.P) + (y : ZMod c.P) * y)
          - (x : ZMod c.P) * x - (y : ZMod c.P) * y * ((y : ZMod c.P) * y))) := by
    simp only [Curve.doubleJacobian]
    rw [ZMod.intCast_mod]
    push_cast
    ring
  have hy3c : (((c.doubleJacobian x y z).2.1 : ℤ) : ZMod c.P) =
      3 * ((x : ZMod c.P) * x) *
        (2 * (((x : ZMod c.P) + (y : ZMod c.P) * y) * ((x : ZMod c.P) + (y : ZMod c.P) * y)
          - (x : ZMod c.P) * x - (y : ZMod c.P) * y * ((y : ZMod c.P) * y)) -
         (((c.doubleJacobian x y z).1 : ℤ) : ZMod c.P)) -
        8 * ((y : ZMod c.P) * y * ((y : ZMod c.P) * y)) := by
    simp only [Curve.doubleJacobian]
    rw [ZMod.intCast_mod, ZMod.intCast_mod]
    push_cast
    ring
  have hz3c : (((c.doubleJacobian x y z).2.2 : ℤ) : ZMod c.P) =
      2 * ((y : ZMod c.P) * (z : ZMod c.P)) := by
    simp only [Curve.doubleJacobian]
    rw [ZMod.intCast_mod]
    push_cast
    ring
  have hzc3 : (((c.doubleJacobian x y z).2.2 : ℤ) : ZMod c.P) =
      2 * Y * (z : ZMod c.P) ^ 4 := by
    rw [hz3c, hyc]
    ring
  refine ⟨?_, ?_, ?_⟩
  · rw [hzc3]
    exact mul_ne_zero (mul_ne_zero hp2 hY) (pow_ne_zero 4 hz)
  · rw [hx3c, hzc3, hxc, hyc, hLs]
    rw [show (curveW c).addX X X (3 * X ^ 2 / (2 * Y)) =
      (3 * X ^ 2 / (2 * Y)) ^ 2 - X - X by
        simp only [WeierstrassCurve.Affine.addX, curveW]; ring]
    field_simp
    ring
  · rw [hy3c, hx3c, hzc3, hxc, hyc, hLs]
    rw [show (curveW c).addY X X Y (3 * X ^ 2 / (2 * Y)) =
      -((3 * X ^ 2 / (2 * Y)) * (((3 * X ^ 2 / (2 * Y)) ^ 2 - X - X) - X) + Y) by
        simp only [WeierstrassCurve.Affine.addY, WeierstrassCurve.Affine.negAddY,
          WeierstrassCurve.Affine.addX, WeierstrassCurve.Affine.negY, curveW]; ring]
    field_simp
    ring

theorem addJacobian_represents (c : Curve) [hp : Fact (Nat.Prime c.P)]
    (hp2 : (2 : ZMod c.P) ≠ 0) (x1 y1 z1 x2 y2 z2 : ℤ) (X1 Y1 X2 Y2 : ZMod c.P)
    (h1 : Represents c x1 y1 z1 X1 Y1) (h2 : Represents c x2 y2 z2 X2 Y2)
    (hX : X1 ≠ X2) :
    Represents c (c.addJacobian x1 y1 z1 x2 y2 z2).1 (c.addJacobian x1 y1 z1 x2 y2 z2).2.1
      (c.addJacobian x1 y1 z1 x2 y2 z2).2.2
      ((curveW c).addX X1 X2 ((curveW c).slope X1 X2 Y1 Y2))
      ((curveW c).addY X1 X2 Y1 ((curveW c).slope X1 X2 Y1 Y2)) := by
  obtain ⟨hz1, hxc1, hyc1⟩ := h1
  obtain ⟨hz2, hxc2, hyc2⟩ := h2
  have hXs : X1 - X2 ≠ 0 := sub_ne_zero.mpr hX
  have hLs : (curveW c).slope X1 X2 Y1 Y2 = (Y1 - Y2) / (X1 - X2) :=
    WeierstrassCurve.Affine.slope_of_X_ne hX
  have hx3c : (((c.addJacobian x1 y1 z1 x2 y2 z2).1 : ℤ) : ZMod c.P) =
      (2 * ((y2 : ZMod c.P) * z1 * ((z1 : ZMod c.P) * z1) -
            (y1 : ZMod c.P) * z2 * ((z2 : ZMod c.P) * z2))) ^ 2 -
        ((x2 : ZMod c.P) * ((z1 : ZMod c.P) * z1) - (x1 : ZMod c.P) * ((z2 : ZMod c.P) * z2)) ^ 3
          * 4 -
        (x1 : ZMod c.P) * ((z2 : ZMod c.P) * z2) *
          (((x2 : ZMod c.P) * ((z1 : ZMod c.P) * z1) -
            (x1 : ZMod c.P) * ((z2 : ZMod c.P) * z2)) ^ 2 * 8) := by
    simp only [Curve.addJacobian, ZMod.intCast_mod, intCast_signFix, Int.cast_mul, Int.cast_add,
      Int.cast_sub, Int.cast_ofNat, Int.cast_pow]
    push_cast
    ring
  have hy3c : (((c.addJacobian x1 y1 z1 x2 y2 z2).2.1 : ℤ) : ZMod c.P) =
      2 * ((y2 : ZMod c.P) * z1 * ((z1 : ZMod c.P) * z1) -
           (y1 : ZMod c.P) * z2 * ((z2 : ZMod c.P) * z2)) *
        ((x1 : ZMod c.P) * ((z2 : ZMod c.P) * z2) *
          (((x2 : ZMod c.P) * ((z1 : ZMod c.P) * z1) -
            (x1 : ZMod c.P) * ((z2 : ZMod c.P) * z2)) ^ 2 * 4) -
         (((c.addJacobian x1 y1 z1 x2 y2 z2).1 : ℤ) : ZMod c.P)) -
        2 * ((y1 : ZMod c.P) * z2 * ((z2 : ZMod c.P) * z2) *
          (((x2 : ZMod c.P) * ((z1 : ZMod c.P) * z1) -
            (x1 : ZMod c.P) * ((z2 : ZMod c.P) * z2)) ^ 3 * 4)) := by
    simp only [Curve.addJacobian, ZMod.intCast_mod, intCast_signFix, Int.cast_mul, Int.cast_add,
      Int.cast_sub, Int.cast_ofNat, Int.cast_pow]
    push_cast
    ring
  have hz3c : (((c.addJacobian x1 y1 z1 x2 y2 z2).2.2 : ℤ) : ZMod c.P) =
      2 * (z1 : ZMod c.P) * z2 *
        ((x2 : ZMod c.P) * ((z1 : ZMod c.P) * z1) -
         (x1 : ZMod c.P) * ((z2 : ZMod c.P) * z2)) := by
    simp only [Curve.addJacobian, ZMod.intCast_mod, intCast_signFix, Int.cast_mul, Int.cast_add,
      Int.cast_sub, Int.cast_ofNat, Int.cast_pow]
    push_cast
    ring
  have hz3c' : (((c.addJacobian x1 y1 z1 x2 y2 z2).2.2 : ℤ) : ZMod c.P) =
      2 * (z1 : ZMod c.P) * z2 * ((X2 - X1) * ((z1 : ZMod c.P) ^ 2 * (z2 : ZMod c.P) ^ 2)) := by
    rw [hz3c, hxc1, hxc2]
    ring
  refine ⟨?_, ?_, ?_⟩
  · rw [hz3c']
    refine mul_ne_zero (mul_ne_zero (mul_ne_zero hp2 hz1) hz2) (mul_ne_zero ?_ ?_)
    · intro h0
      exact hXs (by linear_combination - h0)
    · exact mul_ne_zero (pow_ne_zero 2 hz1) (pow_ne_zero 2 hz2)
  · rw [hx3c, hz3c', hxc1, hxc2, hyc1, hyc2, hLs]
    rw [show (curveW c).addX X1 X2 ((Y1 - Y2) / (X1 - X2)) =
      ((Y1 - Y2) / (X1 - X2)) ^ 2 - X1 - X2 by
        simp only [WeierstrassCurve.Affine.addX, curveW]; ring]
    field_simp
    ring
  · rw [hy3c, hx3c, hz3c', hxc1, hxc2, hyc1, hyc2, hLs]
    rw [show (curveW c).addY X1 X2 Y1 ((Y1 - Y2) / (X1 - X2)) =
      -(((Y1 - Y2) / (X1 - X2)) * ((((Y1 - Y2) / (X1 - X2)) ^ 2 - X1 - X2) - X1) + Y1) by
        simp only [WeierstrassCurve.Affine.addY, WeierstrassCurve.Affine.negAddY,
          WeierstrassCurve.Affine.addX, WeierstrassCurve.Affine.negY, curveW]; ring]
    field_simp
    ring

/-! ### The ScalarMult scan, structurally -/

theorem smByte_eq_foldl (c : Curve) (Bx By : ℤ) :
    ∀ (i b : ℕ) (st : SMState),
      smByte c Bx By i b st = (bitsOfByteAux i b).foldl (smStep c Bx By) st := by
  intro i
  induction i with
  | zero => intro b st; rfl
  | succ i ih =>
    intro b st
    show smByte c Bx By i ((b <<< 1) % 256) (smStep c Bx By st (b &&& 0x80 == 0x80)) = _
    rw [ih]
    rfl

theorem foldl_smByte_eq_kBits (c : Curve) (Bx By : ℤ) :
    ∀ (k : List ℕ) (st : SMState),
      k.foldl (fun st b => smByte c Bx By 8 b st) st =
        (kBits k).foldl (smStep c Bx By) st := by
  intro k
  induction k with
  | nil => intro st; rfl
  | cons b l ih =>
    intro st
    show l.foldl _ (smByte c Bx By 8 b st) = _
    rw [ih, smByte_eq_foldl]
    unfold kBits
    rw [List.flatMap_cons, List.foldl_append]

theorem smStep_notseen_false (c : Curve) (Bx By : ℤ) (st : SMState)
    (h : st.seen = false) : smStep c Bx By st false = st := by
  simp [smStep, h]

theorem smStep_notseen_true (c : Curve) (Bx By : ℤ) (st : SMState)
    (h : st.seen = false) : smStep c Bx By st true = { st with seen := true } := by
  simp [smStep, h]

theorem foldl_smStep_seen (c : Curve) (Bx By : ℤ) :
    ∀ (bits : List Bool) (x y z : ℤ),
      bits.foldl (smStep c Bx By) ⟨x, y, z, true⟩ =
        (fun t : ℤ × ℤ × ℤ => (⟨t.1, t.2.1, t.2.2, true⟩ : SMState))
          (bits.foldl (fun acc bit =>
            let acc2 := (fun t : ℤ × ℤ × ℤ => c.doubleJacobian t.1 t.2.1 t.2.2) acc
            if bit then (fun t : ℤ × ℤ × ℤ => c.addJacobian Bx By 1 t.1 t.2.1 t.2.2) acc2
            else acc2) (x, y, z)) := by
  intro bits
  induction bits with
  | nil => intro x y z; rfl
  | cons b bits ih =>
    intro x y z
    show (bits.foldl (smStep c Bx By) (smStep c Bx By ⟨x, y, z, true⟩ b)) = _
    have hstep : smStep c Bx By ⟨x, y, z, true⟩ b =
        ⟨(if b then c.addJacobian Bx By 1 (c.doubleJacobian x y z).1
            (c.doubleJacobian x y z).2.1 (c.doubleJacobian x y z).2.2
          else c.doubleJacobian x y z).1,
         (if b then c.addJacobian Bx By 1 (c.doubleJacobian x y z).1
            (c.doubleJacobian x y z).2.1 (c.doubleJacobian x y z).2.2
          else c.doubleJacobian x y z).2.1,
         (if b then c.addJacobian Bx By 1 (c.doubleJacobian x y z).1
            (c.doubleJacobian x y z).2.1 (c.doubleJacobian x y z).2.2
          else c.doubleJacobian x y z).2.2, true⟩ := by
      cases b <;> simp [smStep]
    rw [hstep]
    rw [ih]
    cases b <;> rfl

theorem foldl_smStep_spec (c : Curve) (Bx By : ℤ) :
    ∀ (bits : List Bool),
      bits.foldl (smStep c Bx By) ⟨Bx, By, 1, false⟩ =
        (match specSeedScan (fun t : ℤ × ℤ × ℤ => c.doubleJacobian t.1 t.2.1 t.2.2)
            (fun t : ℤ × ℤ × ℤ => c.addJacobian Bx By 1 t.1 t.2.1 t.2.2)
            (Bx, By, 1) bits with
          | none => (⟨Bx, By, 1, false⟩ : SMState)
          | some t => ⟨t.1, t.2.1, t.2.2, true⟩) := by
  intro bits
  induction bits with
  | nil => rfl
  | cons b bits ih =>
    cases b
    · show bits.foldl (smStep c Bx By) (smStep c Bx By ⟨Bx, By, 1, false⟩ false) = _
      rw [smStep_notseen_false c Bx By _ rfl, ih]
      rfl
    · show bits.foldl (smStep c Bx By) (smStep c Bx By ⟨Bx, By, 1, false⟩ true) = _
      rw [smStep_notseen_true c Bx By _ rfl]
      show bits.foldl (smStep c Bx By) ⟨Bx, By, 1, true⟩ = _
      rw [foldl_smStep_seen]
      rfl

theorem C2_scan_refinement (c : Curve) (Bx By : ℤ) (k : List ℕ) :
    c.ScalarMult Bx By k =
      (specSeedScan (fun t : ℤ × ℤ × ℤ => c.doubleJacobian t.1 t.2.1 t.2.2)
        (fun t : ℤ × ℤ × ℤ => c.addJacobian Bx By 1 t.1 t.2.1 t.2.2)
        (Bx, By, 1) (kBits k)).map
        (fun t : ℤ × ℤ × ℤ => c.affineFromJacobian t.1 t.2.1 t.2.2) := by
  unfold Curve.ScalarMult
  rw [foldl_smByte_eq_kBits, foldl_smStep_spec]
  cases hspec : specSeedScan (fun t : ℤ × ℤ × ℤ => c.doubleJacobian t.1 t.2.1 t.2.2)
      (fun t : ℤ × ℤ × ℤ => c.addJacobian Bx By 1 t.1 t.2.1 t.2.2) (Bx, By, 1) (kBits k) with
  | none => rfl
  | some t => rfl

/-! ### Bit values of the scan -/

theorem bitsVal_cons (b : Bool) (bits : List Bool) (v : ℕ) :
    bitsVal (b :: bits) v = bitsVal bits (2 * v + if b then 1 else 0) := rfl

theorem bitsVal_le : ∀ (bits : List Bool) (v : ℕ), v ≤ bitsVal bits v := by
  intro bits
  induction bits with
  | nil => intro v; exact le_rfl
  | cons b bits ih =>
    intro v
    rw [bitsVal_cons]
    calc v ≤ 2 * v + if b then 1 else 0 := by omega
      _ ≤ _ := ih _

theorem bitsVal_affine : ∀ (bits : List Bool) (v : ℕ),
    bitsVal bits v = 2 ^ bits.length * v + bitsVal bits 0 := by
  intro bits
  induction bits with
  | nil => intro v; simp [bitsVal]
  | cons b bits ih =>
    intro v
    rw [bitsVal_cons, bitsVal_cons, ih (2 * v + if b then 1 else 0),
      ih (2 * 0 + if b then 1 else 0), List.length_cons, pow_succ]
    ring

set_option maxRecDepth 8192 in
theorem bitsVal_byte_zero : ∀ b : ℕ, b < 256 → bitsVal (bitsOfByteAux 8 b) 0 = b := by decide

theorem bitsOfByteAux_length : ∀ (i b : ℕ), (bitsOfByteAux i b).length = i := by
  intro i
  induction i with
  | zero => intro b; rfl
  | succ i ih =>
    intro b
    show (bitsOfByteAux i ((b <<< 1) % 256)).length + 1 = i + 1
    rw [ih]

theorem bitsVal_byte (b v : ℕ) (hb : b < 256) :
    bitsVal (bitsOfByteAux 8 b) v = 256 * v + b := by
  rw [bitsVal_affine, bitsOfByteAux_length, bitsVal_byte_zero b hb]
  norm_num

theorem bitsVal_kBits : ∀ (k : List ℕ) (v : ℕ), (∀ b ∈ k, b < 256) →
    bitsVal (kBits k) v = v * 256 ^ k.length + fromBytes k := by
  intro k
  induction k with
  | nil => intro v _; simp [kBits, bitsVal, fromBytes]
  | cons b l ih =>
    intro v hk
    have hb : b < 256 := hk b (by simp)
    unfold kBits
    rw [List.flatMap_cons]
    unfold bitsVal
    rw [List.foldl_append]
    have h8 : (List.foldl (fun a b => 2 * a + if b = true then 1 else 0) v (bitsOfByteAux 8 b))
        = 256 * v + b := by
      have := bitsVal_byte b v hb
      unfold bitsVal at this
      exact this
    rw [h8]
    have := ih (256 * v + b) (fun b hb => hk b (by simp [hb]))
    unfold bitsVal kBits at this
    rw [this, fromBytes_cons]
    simp [List.length_cons, pow_succ]
    ring

/-! ### The scan computes scalar multiples -/

theorem point_some_congr {F : Type} [Field F] {W : WeierstrassCurve.Affine F}
    {x1 y1 x2 y2 : F} (hx : x1 = x2) (hy : y1 = y2)
    (h1 : W.Nonsingular x1 y1) (h2 : W.Nonsingular x2 y2) :
    WeierstrassCurve.Affine.Point.some h1 = WeierstrassCurve.Affine.Point.some h2 := by
  subst hx
  subst hy
  rfl

theorem seenFold_represents (c : Curve) [hp : Fact (Nat.Prime c.P)]
    (hp2 : (2 : ZMod c.P) ≠ 0) (Bx By : ℤ) (XB YB : ZMod c.P)
    (hnsB : (curveW c).Nonsingular XB YB) (hrepB : Represents c Bx By 1 XB YB) :
    ∀ (bits : List Bool) (x y z : ℤ) (v : ℕ) (X Y : ZMod c.P)
      (hns : (curveW c).Nonsingular X Y),
      1 ≤ v →
      v • (WeierstrassCurve.Affine.Point.some hnsB) = WeierstrassCurve.Affine.Point.some hns →
      Represents c x y z X Y →
      (∀ m : ℕ, 1 ≤ m → m ≤ bitsVal bits v →
        m • (WeierstrassCurve.Affine.Point.some hnsB) ≠ 0) →
      ∃ (X' Y' : ZMod c.P) (hns' : (curveW c).Nonsingular X' Y'),
        (bitsVal bits v) • (WeierstrassCurve.Affine.Point.some hnsB) =
          WeierstrassCurve.Affine.Point.some hns' ∧
        Represents c
          (bits.foldl (fun acc bit =>
              let acc2 := (fun t : ℤ × ℤ × ℤ => c.doubleJacobian t.1 t.2.1 t.2.2) acc
              if bit then (fun t : ℤ × ℤ × ℤ => c.addJacobian Bx By 1 t.1 t.2.1 t.2.2) acc2
              else acc2) (x, y, z)).1
          (bits.foldl (fun acc bit =>
              let acc2 := (fun t : ℤ × ℤ × ℤ => c.doubleJacobian t.1 t.2.1 t.2.2) acc
              if bit then (fun t : ℤ × ℤ × ℤ => c.addJacobian Bx By 1 t.1 t.2.1 t.2.2) acc2
              else acc2) (x, y, z)).2.1
          (bits.foldl (fun acc bit =>
              let acc2 := (fun t : ℤ × ℤ × ℤ => c.doubleJacobian t.1 t.2.1 t.2.2) acc
              if bit then (fun t : ℤ × ℤ × ℤ => c.addJacobian Bx By 1 t.1 t.2.1 t.2.2) acc2
              else acc2) (x, y, z)).2.2 X' Y' := by
  intro bits
  induction bits with
  | nil =>
    intro x y z v X Y hns hv hsmul hrep hnd
    exact ⟨X, Y, hns, hsmul, hrep⟩
  | cons bit bits ih =>
    intro x y z v X Y hns hv hsmul hrep hnd
    -- every step first doubles the accumulator
    have hndbl : (2 * v) • (WeierstrassCurve.Affine.Point.some hnsB) ≠ 0 := by
      apply hnd (2 * v) (by omega)
      rw [bitsVal_cons]
      calc 2 * v ≤ 2 * v + (if bit then 1 else 0) := by omega
        _ ≤ _ := bitsVal_le _ _
    have h2v : (2 * v) • (WeierstrassCurve.Affine.Point.some hnsB) =
        v • WeierstrassCurve.Affine.Point.some hnsB +
        v • WeierstrassCurve.Affine.Point.some hnsB := by
      rw [two_mul, add_nsmul]
    have hY0 : Y ≠ 0 := by
      intro h0
      apply hndbl
      rw [h2v, hsmul]
      apply WeierstrassCurve.Affine.Point.add_of_Y_eq rfl
      rw [curveW_negY, h0, neg_zero]
    have hYne : Y ≠ (curveW c).negY X Y := Y_ne_negY_of_two_smul_ne c hp2 X Y hY0
    have hns2 : (curveW c).Nonsingular ((curveW c).addX X X ((curveW c).slope X X Y Y))
        ((curveW c).addY X X Y ((curveW c).slope X X Y Y)) :=
      WeierstrassCurve.Affine.nonsingular_add hns hns (fun _ => hYne)
    have hsmul2 : (2 * v) • WeierstrassCurve.Affine.Point.some hnsB =
        WeierstrassCurve.Affine.Point.some hns2 := by
      rw [h2v, hsmul, WeierstrassCurve.Affine.Point.add_self_of_Y_ne hYne]
    have hrep2 := doubleJacobian_represents c hp2 x y z X Y hrep hY0
    cases bit with
    | false =>
      have hbv : bitsVal (false :: bits) v = bitsVal bits (2 * v) := by
        rw [bitsVal_cons]
        norm_num
      rw [hbv] at hnd
      rw [hbv, List.foldl_cons]
      exact ih (c.doubleJacobian x y z).1 (c.doubleJacobian x y z).2.1
        (c.doubleJacobian x y z).2.2 (2 * v) _ _ hns2 (by omega) hsmul2 hrep2 hnd
    | true =>
      have hbv : bitsVal (true :: bits) v = bitsVal bits (2 * v + 1) := by
        rw [bitsVal_cons]
        norm_num
      rw [hbv] at hnd
      have hle21 : 2 * v + 1 ≤ bitsVal bits (2 * v + 1) := bitsVal_le _ _
      have hnd21 : (2 * v + 1) • (WeierstrassCurve.Affine.Point.some hnsB) ≠ 0 :=
        hnd _ (by omega) hle21
      have hnd2m1 : (2 * v - 1) • (WeierstrassCurve.Affine.Point.some hnsB) ≠ 0 :=
        hnd _ (by omega) (by omega)
      have hXne : XB ≠ (curveW c).addX X X ((curveW c).slope X X Y Y) := by
        intro hXeq
        rcases WeierstrassCurve.Affine.Y_eq_of_X_eq hnsB.1 hns2.1 hXeq with hYeq | hYneg
        · have heq : WeierstrassCurve.Affine.Point.some hnsB =
              WeierstrassCurve.Affine.Point.some hns2 := point_some_congr hXeq hYeq hnsB hns2
          have h1' : (2 * v) • WeierstrassCurve.Affine.Point.some hnsB =
              WeierstrassCurve.Affine.Point.some hnsB := by rw [hsmul2, ← heq]
          have hsucc := succ_nsmul (WeierstrassCurve.Affine.Point.some hnsB) (2 * v - 1)
          rw [show 2 * v - 1 + 1 = 2 * v by omega] at hsucc
          rw [hsucc] at h1'
          exact hnd2m1 (add_left_eq_self.mp h1')
        · apply hnd21
          have hsplit : (2 * v + 1) • WeierstrassCurve.Affine.Point.some hnsB =
              WeierstrassCurve.Affine.Point.some hnsB +
              (2 * v) • WeierstrassCurve.Affine.Point.some hnsB := by
            rw [show 2 * v + 1 = 1 + 2 * v by omega, add_nsmul, one_nsmul]
          rw [hsplit, hsmul2]
          exact WeierstrassCurve.Affine.Point.add_of_Y_eq hXeq hYneg
      have hns3 := WeierstrassCurve.Affine.nonsingular_add hnsB hns2 (fun h => absurd h hXne)
      have hsmul3 : (2 * v + 1) • WeierstrassCurve.Affine.Point.some hnsB =
          WeierstrassCurve.Affine.Point.some hns3 := by
        rw [show 2 * v + 1 = 1 + 2 * v by omega, add_nsmul, one_nsmul, hsmul2,
          WeierstrassCurve.Affine.Point.add_of_X_ne hXne]
      have hrep3 := addJacobian_represents c hp2 Bx By 1 (c.doubleJacobian x y z).1
        (c.doubleJacobian x y z).2.1 (c.doubleJacobian x y z).2.2 XB YB _ _
        hrepB hrep2 hXne
      rw [hbv, List.foldl_cons]
      exact ih _ _ _ (2 * v + 1) _ _ hns3 (by omega) hsmul3 hrep3 hnd

theorem dropWhile_false_nil : ∀ bits : List Bool,
    bits.dropWhile (fun b => !b) = [] → bitsVal bits 0 = 0 := by
  intro bits
  induction bits with
  | nil => intro _; rfl
  | cons x xs ih =>
    intro h
    cases x with
    | false =>
      have h' : xs.dropWhile (fun b => !b) = [] := h
      rw [bitsVal_cons]
      have h0 : (2 * 0 + if false then 1 else 0 : ℕ) = 0 := by norm_num
      rw [h0]
      exact ih h'
    | true =>
      exact absurd (show true :: xs = [] from h) (List.cons_ne_nil _ _)

theorem dropWhile_false_decomp : ∀ (bits : List Bool) (b : Bool) (rest : List Bool),
    bits.dropWhile (fun x => !x) = b :: rest →
    b = true ∧ bitsVal bits 0 = bitsVal rest 1 := by
  intro bits
  induction bits with
  | nil =>
    intro b rest h
    exact absurd (show ([] : List Bool) = b :: rest from h) (by simp)
  | cons x xs ih =>
    intro b rest h
    cases x with
    | false =>
      have h' : xs.dropWhile (fun x => !x) = b :: rest := h
      obtain ⟨hb, hv⟩ := ih b rest h'
      refine ⟨hb, ?_⟩
      rw [bitsVal_cons]
      have h0 : (2 * 0 + if false then 1 else 0 : ℕ) = 0 := by norm_num
      rw [h0, hv]
    | true =>
      have h' : true :: xs = b :: rest := h
      have hb : true = b := by injection h'
      have hr : xs = rest := by injection h'
      subst hb
      subst hr
      refine ⟨rfl, ?_⟩
      rw [bitsVal_cons]
      have h0 : (2 * 0 + if true then 1 else 0 : ℕ) = 1 := by norm_num
      rw [h0]

theorem specSeedScan_eq_some {α : Type} (dbl addBase : α → α) (seed : α)
    (bits rest : List Bool) (h : bits.dropWhile (fun b => !b) = true :: rest) :
    specSeedScan dbl addBase seed bits =
      some (rest.foldl (fun acc bit =>
        let acc2 := dbl acc
        if bit then addBase acc2 else acc2) seed) := by
  unfold specSeedScan
  rw [h]

/-- C2: for every curve with odd prime modulus, every nonsingular on-curve
base point `(Bx, By)` and every big-endian byte string `k` with at least one
set bit, (i) `ScalarMult` performs exactly the seed-scan the specification
describes — accumulator seeded with the base point, the first set bit
consumed as selecting the seed, every later bit a doubling plus, when set,
an addition of the base point — and (ii) whenever no intermediate multiple
`m·(Bx,By)` for `1 ≤ m ≤ k` is the (unrepresentable) identity, the returned
affine pair is exactly the affine coordinates of the scalar multiple
`k·(Bx, By)` in the curve group. -/
theorem C2_scalarMult (c : Curve) [hp : Fact (Nat.Prime c.P)]
    (hp2 : (2 : ZMod c.P) ≠ 0) (Bx By : ℕ)
    (hnsB : (curveW c).Nonsingular ((Bx : ℕ) : ZMod c.P) ((By : ℕ) : ZMod c.P))
    (k : List ℕ) (hk : ∀ b ∈ k, b < 256) (hk0 : fromBytes k ≠ 0)
    (hnd : ∀ m : ℕ, 1 ≤ m → m ≤ fromBytes k →
      m • (WeierstrassCurve.Affine.Point.some hnsB) ≠ 0) :
    (c.ScalarMult (Bx : ℤ) (By : ℤ) k =
      (specSeedScan (fun t : ℤ × ℤ × ℤ => c.doubleJacobian t.1 t.2.1 t.2.2)
        (fun t : ℤ × ℤ × ℤ => c.addJacobian (Bx : ℤ) (By : ℤ) 1 t.1 t.2.1 t.2.2)
        ((Bx : ℤ), (By : ℤ), 1) (kBits k)).map
        (fun t : ℤ × ℤ × ℤ => c.affineFromJacobian t.1 t.2.1 t.2.2)) ∧
    ∃ (X Y : ZMod c.P) (hns : (curveW c).Nonsingular X Y),
      (fromBytes k) • (WeierstrassCurve.Affine.Point.some hnsB) =
        WeierstrassCurve.Affine.Point.some hns ∧
      c.ScalarMult (Bx : ℤ) (By : ℤ) k =
        some (some ((X.val : ℤ), (Y.val : ℤ))) := by
  have hscan := C2_scan_refinement c (Bx : ℤ) (By : ℤ) k
  refine ⟨hscan, ?_⟩
  cases hdrop : (kBits k).dropWhile (fun b => !b) with
  | nil =>
    exfalso
    have h1 := bitsVal_kBits k 0 hk
    rw [dropWhile_false_nil _ hdrop] at h1
    simp only [zero_mul, zero_add] at h1
    exact hk0 h1.symm
  | cons b rest =>
    obtain ⟨hb, hval⟩ := dropWhile_false_decomp (kBits k) b rest hdrop
    subst hb
    have hfb : fromBytes k = bitsVal rest 1 := by
      have h1 := bitsVal_kBits k 0 hk
      rw [hval] at h1
      simp only [zero_mul, zero_add] at h1
      exact h1.symm
    have hrepB : Represents c (Bx : ℤ) (By : ℤ) 1
        ((Bx : ℕ) : ZMod c.P) ((By : ℕ) : ZMod c.P) := by
      refine ⟨?_, ?_, ?_⟩
      · rw [Int.cast_one]
        exact one_ne_zero
      · push_cast
        ring
      · push_cast
        ring
    have hone : (1 : ℕ) • WeierstrassCurve.Affine.Point.some hnsB =
        WeierstrassCurve.Affine.Point.some hnsB := one_nsmul _
    have hnd' : ∀ m : ℕ, 1 ≤ m → m ≤ bitsVal rest 1 →
        m • WeierstrassCurve.Affine.Point.some hnsB ≠ 0 := by
      intro m h1 h2
      exact hnd m h1 (hfb ▸ h2)
    obtain ⟨X', Y', hns', hsm, hrep'⟩ :=
      seenFold_represents c hp2 (Bx : ℤ) (By : ℤ) _ _ hnsB hrepB rest
        (Bx : ℤ) (By : ℤ) 1 1 _ _ hnsB le_rfl hone hrepB hnd'
    refine ⟨X', Y', hns', ?_, ?_⟩
    · rw [hfb]
      exact hsm
    · rw [hscan, specSeedScan_eq_some _ _ _ _ rest hdrop]
      exact congrArg some (affineFromJacobian_represents c _ _ _ X' Y' hrep')

theorem curve7_base_nonsingular :
    (curveW curve7).Nonsingular (((1 : ℕ)) : ZMod curve7.P) (((2 : ℕ)) : ZMod curve7.P) := by
  rw [WeierstrassCurve.Affine.nonsingular_iff, WeierstrassCurve.Affine.equation_iff]
  decide

theorem curve7_two_ne_zero : (2 : ZMod curve7.P) ≠ 0 := by decide

theorem curve7_val_one : ((((1 : ℕ)) : ZMod curve7.P)).val = 1 := by decide

theorem curve7_val_two : ((((2 : ℕ)) : ZMod curve7.P)).val = 2 := by decide

theorem C2_scalarMult_witness :
    curve7.ScalarMult ((1 : ℕ) : ℤ) ((2 : ℕ) : ℤ) [1] = some (some ((1 : ℤ), (2 : ℤ))) := by
  haveI : Fact (Nat.Prime curve7.P) := ⟨by decide⟩
  obtain ⟨hscan, X, Y, hns, hsm, heq⟩ :=
    C2_scalarMult curve7 curve7_two_ne_zero 1 2 curve7_base_nonsingular [1]
      (by decide) (by decide)
      (by
        intro m h1 h2
        have h2' : m ≤ 1 := h2
        have hm : m = 1 := by omega
        subst hm
        rw [one_nsmul]
        exact WeierstrassCurve.Affine.Point.some_ne_zero curve7_base_nonsingular)
  have h1 : WeierstrassCurve.Affine.Point.some curve7_base_nonsingular =
      WeierstrassCurve.Affine.Point.some hns := by
    rw [← hsm, show fromBytes [1] = 1 from rfl, one_nsmul]
  have hX : (((1 : ℕ)) : ZMod curve7.P) = X := by
    injection h1 with hx hy
  have hY : (((2 : ℕ)) : ZMod curve7.P) = Y := by
    injection h1 with hx hy
  rw [heq, ← hX, ← hY, curve7_val_one, curve7_val_two]
  norm_num

theorem scalarMult_eq_smul (c : Curve) [hp : Fact (Nat.Prime c.P)]
    (hp2 : (2 : ZMod c.P) ≠ 0) (Bx By : ℕ)
    (hnsB : (curveW c).Nonsingular ((Bx : ℕ) : ZMod c.P) ((By : ℕ) : ZMod c.P))
    (k : List ℕ) (hk : ∀ b ∈ k, b < 256) (hk0 : fromBytes k ≠ 0)
    (hnd : ∀ m : ℕ, 1 ≤ m → m ≤ fromBytes k →
      m • (WeierstrassCurve.Affine.Point.some hnsB) ≠ 0) :
    ∃ (X Y : ZMod c.P) (hns : (curveW c).Nonsingular X Y),
      (fromBytes k) • (WeierstrassCurve.Affine.Point.some hnsB) =
        WeierstrassCurve.Affine.Point.some hns ∧
      c.ScalarMult (Bx : ℤ) (By : ℤ) k = some (some ((X.val : ℤ), (Y.val : ℤ))) := by
  have hscan := C2_scan_refinement c (Bx : ℤ) (By : ℤ) k
  cases hdrop : (kBits k).dropWhile (fun b => !b) with
  | nil =>
    exfalso
    have h1 := bitsVal_kBits k 0 hk
    rw [dropWhile_false_nil _ hdrop] at h1
    simp only [zero_mul, zero_add] at h1
    exact hk0 h1.symm
  | cons b rest =>
    obtain ⟨hb, hval⟩ := dropWhile_false_decomp (kBits k) b rest hdrop
    subst hb
    have hfb : fromBytes k = bitsVal rest 1 := by
      have h1 := bitsVal_kBits k 0 hk
      rw [hval] at h1
      simp only [zero_mul, zero_add] at h1
      exact h1.symm
    have hrepB : Represents c (Bx : ℤ) (By : ℤ) 1
        ((Bx : ℕ) : ZMod c.P) ((By : ℕ) : ZMod c.P) := by
      refine ⟨?_, ?_, ?_⟩
      · rw [Int.cast_one]
        exact one_ne_zero
      · push_cast
        ring
      · push_cast
        ring
    have hone : (1 : ℕ) • WeierstrassCurve.Affine.Point.some hnsB =
        WeierstrassCurve.Affine.Point.some hnsB := one_nsmul _
    have hnd' : ∀ m : ℕ, 1 ≤ m → m ≤ bitsVal rest 1 →
        m • WeierstrassCurve.Affine.Point.some hnsB ≠ 0 := by
      intro m h1 h2
      exact hnd m h1 (hfb ▸ h2)
    obtain ⟨X', Y', hns', hsm, hrep'⟩ :=
      seenFold_represents c hp2 (Bx : ℤ) (By : ℤ) _ _ hnsB hrepB rest
        (Bx : ℤ) (By : ℤ) 1 1 _ _ hnsB le_rfl hone hrepB hnd'
    refine ⟨X', Y', hns', ?_, ?_⟩
    · rw [hfb]
      exact hsm
    · rw [hscan, specSeedScan_eq_some _ _ _ _ rest hdrop]
      exact congrArg some (affineFromJacobian_represents c _ _ _ X' Y' hrep')

/-- C6 (amended): the homomorphism law holds once the two intermediate
points are additionally required to be neither equal nor inverse to each
other — the h = 0 degenerate case of `addJacobian` the specification itself
documents (§4.2). -/
theorem C6_amended (c : Curve) [hp : Fact (Nat.Prime c.P)]
    (hp2 : (2 : ZMod c.P) ≠ 0)
    (hnsB : (curveW c).Nonsingular ((c.Gx : ℕ) : ZMod c.P) ((c.Gy : ℕ) : ZMod c.P))
    (hord : c.N • WeierstrassCurve.Affine.Point.some hnsB = 0)
    (k1 k2 k12 : List ℕ)
    (hk1 : ∀ b ∈ k1, b < 256) (hk2 : ∀ b ∈ k2, b < 256) (hk12 : ∀ b ∈ k12, b < 256)
    (hb1 : fromBytes k1 ≠ 0) (hb2 : fromBytes k2 ≠ 0) (hb12 : fromBytes k12 ≠ 0)
    (h12 : fromBytes k12 = (fromBytes k1 + fromBytes k2) % c.N)
    (hnd1 : ∀ m : ℕ, 1 ≤ m → m ≤ fromBytes k1 →
      m • (WeierstrassCurve.Affine.Point.some hnsB) ≠ 0)
    (hnd2 : ∀ m : ℕ, 1 ≤ m → m ≤ fromBytes k2 →
      m • (WeierstrassCurve.Affine.Point.some hnsB) ≠ 0)
    (hnd12 : ∀ m : ℕ, 1 ≤ m → m ≤ fromBytes k12 →
      m • (WeierstrassCurve.Affine.Point.some hnsB) ≠ 0)
    (hne : (fromBytes k1) • (WeierstrassCurve.Affine.Point.some hnsB) ≠
      (fromBytes k2) • (WeierstrassCurve.Affine.Point.some hnsB))
    (hninv : (fromBytes k1) • (WeierstrassCurve.Affine.Point.some hnsB) ≠
      -((fromBytes k2) • (WeierstrassCurve.Affine.Point.some hnsB))) :
    ∃ p1 p2 : ℤ × ℤ,
      c.ScalarMult (c.Gx : ℤ) (c.Gy : ℤ) k1 = some (some p1) ∧
      c.ScalarMult (c.Gx : ℤ) (c.Gy : ℤ) k2 = some (some p2) ∧
      c.ScalarMult (c.Gx : ℤ) (c.Gy : ℤ) k12 = some (c.Add p1.1 p1.2 p2.1 p2.2) := by
  obtain ⟨X1, Y1, hns1, hsm1, heq1⟩ := scalarMult_eq_smul c hp2 c.Gx c.Gy hnsB k1 hk1 hb1 hnd1
  obtain ⟨X2, Y2, hns2, hsm2, heq2⟩ := scalarMult_eq_smul c hp2 c.Gx c.Gy hnsB k2 hk2 hb2 hnd2
  obtain ⟨X12, Y12, hns12, hsm12, heq12⟩ :=
    scalarMult_eq_smul c hp2 c.Gx c.Gy hnsB k12 hk12 hb12 hnd12
  have hXne : X1 ≠ X2 := by
    intro hXeq
    rcases WeierstrassCurve.Affine.Y_eq_of_X_eq hns1.1 hns2.1 hXeq with hYeq | hYneg
    · exact hne (by rw [hsm1, hsm2]; exact point_some_congr hXeq hYeq hns1 hns2)
    · apply hninv
      rw [hsm1, hsm2, WeierstrassCurve.Affine.Point.neg_some]
      exact point_some_congr hXeq hYneg hns1 (WeierstrassCurve.Affine.nonsingular_neg hns2)
  have hnsAdd := WeierstrassCurve.Affine.nonsingular_add hns1 hns2 (fun h => absurd h hXne)
  have hmod : ((fromBytes k1 + fromBytes k2) % c.N) •
      (WeierstrassCurve.Affine.Point.some hnsB) =
      (fromBytes k1 + fromBytes k2) • (WeierstrassCurve.Affine.Point.some hnsB) := by
    conv_rhs => rw [← Nat.div_add_mod (fromBytes k1 + fromBytes k2) c.N]
    rw [add_nsmul, mul_nsmul, hord, nsmul_zero, zero_add]
  have hsum : WeierstrassCurve.Affine.Point.some hns12 =
      WeierstrassCurve.Affine.Point.some hnsAdd := by
    rw [← hsm12, h12, hmod, add_nsmul, hsm1, hsm2,
      WeierstrassCurve.Affine.Point.add_of_X_ne hXne]
  have hX12 : X12 = (curveW c).addX X1 X2 ((curveW c).slope X1 X2 Y1 Y2) := by
    injection hsum
  have hY12 : Y12 = (curveW c).addY X1 X2 Y1 ((curveW c).slope X1 X2 Y1 Y2) := by
    injection hsum
  have hrep1 : Represents c ((X1.val : ℤ)) ((Y1.val : ℤ)) 1 X1 Y1 := by
    refine ⟨?_, ?_, ?_⟩
    · rw [Int.cast_one]
      exact one_ne_zero
    · push_cast
      rw [ZMod.natCast_val, ZMod.cast_id]
      ring
    · push_cast
      rw [ZMod.natCast_val, ZMod.cast_id]
      ring
  have hrep2 : Represents c ((X2.val : ℤ)) ((Y2.val : ℤ)) 1 X2 Y2 := by
    refine ⟨?_, ?_, ?_⟩
    · rw [Int.cast_one]
      exact one_ne_zero
    · push_cast
      rw [ZMod.natCast_val, ZMod.cast_id]
      ring
    · push_cast
      rw [ZMod.natCast_val, ZMod.cast_id]
      ring
  have hrepAdd := addJacobian_represents c hp2 (X1.val : ℤ) (Y1.val : ℤ) 1
    (X2.val : ℤ) (Y2.val : ℤ) 1 X1 Y1 X2 Y2 hrep1 hrep2 hXne
  have hAdd : c.Add (X1.val : ℤ) (Y1.val : ℤ) (X2.val : ℤ) (Y2.val : ℤ) =
      some (((((curveW c).addX X1 X2 ((curveW c).slope X1 X2 Y1 Y2)).val : ℤ)),
        ((((curveW c).addY X1 X2 Y1 ((curveW c).slope X1 X2 Y1 Y2)).val : ℤ))) :=
    affineFromJacobian_represents c _ _ _ _ _ hrepAdd
  refine ⟨((X1.val : ℤ), (Y1.val : ℤ)), ((X2.val : ℤ), (Y2.val : ℤ)), heq1, heq2, ?_⟩
  show c.ScalarMult (c.Gx : ℤ) (c.Gy : ℤ) k12 =
    some (c.Add (X1.val : ℤ) (Y1.val : ℤ) (X2.val : ℤ) (Y2.val : ℤ))
  rw [heq12, hX12, hY12, hAdd]

/-- C6 counterexample: on secp160k1, with k1 = k2 = [1] (both scalars 1),
both intermediates are present (the base point itself) and the combined
scalar 2 is present as well, yet `ScalarMult(G, 2)` differs from
`Add(ScalarMult(G,1), ScalarMult(G,1))`: the latter hits the h = 0
degenerate case of `addJacobian` and produces no affine point. -/
theorem C6_counterexample :
    secp160k1.IsOnCurve (secp160k1.Gx : ℤ) (secp160k1.Gy : ℤ) = true ∧
    secp160k1.ScalarBaseMult [1] =
      some (some ((secp160k1.Gx : ℤ), (secp160k1.Gy : ℤ))) ∧
    (fromBytes [1] + fromBytes [1]) % secp160k1.N = fromBytes [2] ∧
    secp160k1.ScalarBaseMult [2] ≠
      some (secp160k1.Add (secp160k1.Gx : ℤ) (secp160k1.Gy : ℤ)
        (secp160k1.Gx : ℤ) (secp160k1.Gy : ℤ)) := by
  refine ⟨by decide, by decide, by decide, by decide⟩

instance curve7_prime : Fact (Nat.Prime curve7.P) := ⟨by decide⟩

theorem curve7_Yne2 : (((2 : ℕ)) : ZMod curve7.P) ≠
    (curveW curve7).negY (((1 : ℕ)) : ZMod curve7.P) (((2 : ℕ)) : ZMod curve7.P) := by
  rw [curveW_negY]
  decide

theorem curve7_slope2G :
    (curveW curve7).slope (((1 : ℕ)) : ZMod curve7.P) (((1 : ℕ)) : ZMod curve7.P)
      (((2 : ℕ)) : ZMod curve7.P) (((2 : ℕ)) : ZMod curve7.P) =
      (((6 : ℕ)) : ZMod curve7.P) := by
  rw [WeierstrassCurve.Affine.slope_of_Y_ne rfl curve7_Yne2]
  rw [div_eq_iff ?hden]
  case hden =>
    rw [curveW_negY]
    decide
  rw [curveW_negY]
  decide

theorem curve7_addX_ne :
    (curveW curve7).addX (((1 : ℕ)) : ZMod curve7.P) (((1 : ℕ)) : ZMod curve7.P)
      ((curveW curve7).slope (((1 : ℕ)) : ZMod curve7.P) (((1 : ℕ)) : ZMod curve7.P)
        (((2 : ℕ)) : ZMod curve7.P) (((2 : ℕ)) : ZMod curve7.P)) ≠
      (((1 : ℕ)) : ZMod curve7.P) := by
  simp only [WeierstrassCurve.Affine.addX, curve7_slope2G]
  decide

theorem curve7_h2G :
    (2 : ℕ) • (WeierstrassCurve.Affine.Point.some curve7_base_nonsingular) =
      WeierstrassCurve.Affine.Point.some
        (WeierstrassCurve.Affine.nonsingular_add curve7_base_nonsingular
          curve7_base_nonsingular (fun _ => curve7_Yne2)) := by
  rw [two_nsmul]
  exact WeierstrassCurve.Affine.Point.add_self_of_Y_ne curve7_Yne2

theorem curve7_h3G_ne :
    (3 : ℕ) • (WeierstrassCurve.Affine.Point.some curve7_base_nonsingular) ≠ 0 := by
  have h3 : (3 : ℕ) = 2 + 1 := rfl
  rw [h3, add_nsmul, one_nsmul, curve7_h2G,
    WeierstrassCurve.Affine.Point.add_of_X_ne curve7_addX_ne]
  exact WeierstrassCurve.Affine.Point.some_ne_zero _

theorem C6_amended_witness :
    ∃ p1 p2 : ℤ × ℤ,
      curve7.ScalarMult (curve7.Gx : ℤ) (curve7.Gy : ℤ) [1] = some (some p1) ∧
      curve7.ScalarMult (curve7.Gx : ℤ) (curve7.Gy : ℤ) [2] = some (some p2) ∧
      curve7.ScalarMult (curve7.Gx : ℤ) (curve7.Gy : ℤ) [3] =
        some (curve7.Add p1.1 p1.2 p2.1 p2.2) := by
  have hord : curve7.N • (WeierstrassCurve.Affine.Point.some curve7_base_nonsingular) = 0 :=
    zero_nsmul _
  have hnd1 : ∀ m : ℕ, 1 ≤ m → m ≤ fromBytes [1] →
      m • (WeierstrassCurve.Affine.Point.some curve7_base_nonsingular) ≠ 0 := by
    intro m h1 h2
    have h2' : m ≤ 1 := h2
    have hm : m = 1 := by omega
    subst hm
    rw [one_nsmul]
    exact WeierstrassCurve.Affine.Point.some_ne_zero _
  have hnd2 : ∀ m : ℕ, 1 ≤ m → m ≤ fromBytes [2] →
      m • (WeierstrassCurve.Affine.Point.some curve7_base_nonsingular) ≠ 0 := by
    intro m h1 h2
    have h2' : m ≤ 2 := h2
    have hm : m = 1 ∨ m = 2 := by omega
    rcases hm with rfl | rfl
    · rw [one_nsmul]
      exact WeierstrassCurve.Affine.Point.some_ne_zero _
    · rw [curve7_h2G]
      exact WeierstrassCurve.Affine.Point.some_ne_zero _
  have hnd12 : ∀ m : ℕ, 1 ≤ m → m ≤ fromBytes [3] →
      m • (WeierstrassCurve.Affine.Point.some curve7_base_nonsingular) ≠ 0 := by
    intro m h1 h2
    have h2' : m ≤ 3 := h2
    have hm : m = 1 ∨ m = 2 ∨ m = 3 := by omega
    rcases hm with rfl | rfl | rfl
    · rw [one_nsmul]
      exact WeierstrassCurve.Affine.Point.some_ne_zero _
    · rw [curve7_h2G]
      exact WeierstrassCurve.Affine.Point.some_ne_zero _
    · exact curve7_h3G_ne
  have hne : (fromBytes [1]) • (WeierstrassCurve.Affine.Point.some curve7_base_nonsingular) ≠
      (fromBytes [2]) • (WeierstrassCurve.Affine.Point.some curve7_base_nonsingular) := by
    intro h
    have h' : (1 : ℕ) • (WeierstrassCurve.Affine.Point.some curve7_base_nonsingular) =
        (2 : ℕ) • (WeierstrassCurve.Affine.Point.some curve7_base_nonsingular) := h
    rw [one_nsmul, curve7_h2G] at h'
    injection h' with hx hy
    exact curve7_addX_ne hx.symm
  have hninv : (fromBytes [1]) • (WeierstrassCurve.Affine.Point.some curve7_base_nonsingular) ≠
      -((fromBytes [2]) • (WeierstrassCurve.Affine.Point.some curve7_base_nonsingular)) := by
    intro h
    have h' : (1 : ℕ) • (WeierstrassCurve.Affine.Point.some curve7_base_nonsingular) =
        -((2 : ℕ) • (WeierstrassCurve.Affine.Point.some curve7_base_nonsingular)) := h
    rw [one_nsmul, curve7_h2G, WeierstrassCurve.Affine.Point.neg_some] at h'
    injection h' with hx hy
    exact curve7_addX_ne hx.symm
  exact C6_amended curve7 curve7_two_ne_zero curve7_base_nonsingular hord [1] [2] [3]
    (by decide) (by decide) (by decide) (by decide) (by decide) (by decide) (by decide)
    hnd1 hnd2 hnd12 hne hninv

theorem C7_generators_on_curve_witness :
    secp256k1 ∈ registeredCurves ∧
      secp256k1.IsOnCurve (secp256k1.Gx : ℤ) (secp256k1.Gy : ℤ) = true :=
  ⟨by decide, C7_generators_on_curve secp256k1 (by decide)⟩
